import Mathlib

/-!
Verification of the xwords crossword filler against its specification.

The Rust sources are shallowly embedded:
* `Crossword` (src/crossword.rs): contents as a flat `List Char`, with explicit
  width and height; `' '` is the internal empty cell, `'.'` and `':'` are blocks.
* `TrieNode`/`Trie` (src/trie.rs): the children hash map becomes an association
  list with unique keys (insertion replaces an existing key, otherwise appends);
  hash-map iteration order becomes the association-list order.  All claims
  proved about the trie are order-insensitive (membership / emptiness), so the
  iteration-order choice is immaterial.
* `parse_word_boundaries` (src/parse.rs): the two scanning passes, one state
  record per line, flushed at blocks and line ends.
* `Filler::fill` (src/fill/filler.rs): a fuel-indexed loop; `none` marks fuel
  exhaustion (the Rust loop would keep running), `some r` is the program's
  actual result.  The wall-clock budget becomes an abstract `timeUp` predicate
  on the candidate counter.  The components of `fill` that live in the missing
  files `src/fill/mod.rs` and `src/fill/cache.rs` are modelled from the spec
  and marked as such in their doc comments.

Reading a cell uses `List.getD` with default `' '`; the Rust source would
panic on an out-of-bounds index, and every theorem below either proves its
reads in bounds or quantifies over the total model.
-/

namespace XWords

/-- The direction of a word in a Crossword (src/crossword.rs `Direction`). -/
inductive Direction where
  | Across
  | Down
deriving DecidableEq, Repr

/-- A word slot: start cell, length, direction (src/parse.rs `WordBoundary`). -/
structure WordBoundary where
  start_row : Nat
  start_col : Nat
  length : Nat
  direction : Direction
deriving DecidableEq, Repr

/-- The grid (src/crossword.rs `Crossword`): flat contents plus dimensions.
`'.'` and `':'` are blocks, `' '` is the internal empty cell. -/
structure Crossword where
  contents : List Char
  width : Nat
  height : Nat
deriving DecidableEq, Repr

/-- Is a character a black square (src/parse.rs `BLACK_SQUARE = ['.', ':']`)? -/
def isBlackChar (c : Char) : Bool :=
  c = '.' || c = ':'

/-! ## Trie (src/trie.rs) -/

/-- A prefix-tree node (src/trie.rs `TrieNode`): optional letter, children map
(as an association list), terminal flag. -/
inductive TrieNode where
  | mk (contents : Option Char) (children : List (Char × TrieNode)) (is_terminal : Bool)

/-- The letter stored at this node. -/
def TrieNode.contents : TrieNode → Option Char
  | .mk c _ _ => c

/-- The children of this node. -/
def TrieNode.children : TrieNode → List (Char × TrieNode)
  | .mk _ ch _ => ch

/-- The terminal flag of this node. -/
def TrieNode.is_terminal : TrieNode → Bool
  | .mk _ _ t => t

/-- Look a key up in a children list (`FxHashMap::get`). -/
def lookupChild (k : Char) : List (Char × TrieNode) → Option TrieNode
  | [] => none
  | p :: rest => if p.1 = k then some p.2 else lookupChild k rest

/-- Store a key in a children list (`FxHashMap::insert`): replace the entry
with this key when present, append otherwise. -/
def insertChild (k : Char) (v : TrieNode) : List (Char × TrieNode) → List (Char × TrieNode)
  | [] => [(k, v)]
  | p :: rest => if p.1 = k then (k, v) :: rest else p :: insertChild k v rest

/-- Insert a word along a path (src/trie.rs `TrieNode::add_sequence`): descend
into the existing child or a fresh node for the next character, mark the node
terminal at the end of the word. -/
def TrieNode.add_sequence : TrieNode → List Char → TrieNode
  | .mk c ch _, [] => .mk c ch true
  | .mk c ch t, v :: rest =>
    match lookupChild v ch with
    | some child => .mk c (insertChild v (child.add_sequence rest) ch) t
    | none => .mk c (insertChild v ((TrieNode.mk (some v) [] false).add_sequence rest) ch) t

/-- All words matching a pattern (src/trie.rs `TrieNode::words`): push this
node's letter onto the partial word; a space in the pattern fans out into all
children, a letter descends into at most one child; at pattern exhaustion a
terminal node contributes the accumulated word. -/
def TrieNode.words (n : TrieNode) (pattern partialW : List Char) : List (List Char) :=
  let part2 := match n.contents with
    | some c => partialW ++ [c]
    | none => partialW
  match pattern with
  | [] => if n.is_terminal then [part2] else []
  | c :: rest =>
    if c = ' ' then
      (n.children.map (fun p => p.2.words rest part2)).flatten
    else
      match lookupChild c n.children with
      | some child => child.words rest part2
      | none => []
termination_by structural pattern

/-- Is any word consistent with the pattern (src/trie.rs `TrieNode::is_viable`)?
Space fans out into all children (short-circuiting), a letter descends into at
most one child; at pattern exhaustion the terminal flag decides. -/
def TrieNode.is_viable (n : TrieNode) (chars : List Char) : Bool :=
  match chars with
  | [] => n.is_terminal
  | c :: rest =>
    if c = ' ' then
      n.children.any (fun p => p.2.is_viable rest)
    else
      match lookupChild c n.children with
      | none => false
      | some child => child.is_viable rest
termination_by structural chars

/-- Does the trie rooted here contain this word: follow the labelled path and
check the terminal flag.  (This is the path semantics that `add_sequence`
builds and that `words`/`is_viable` traverse.) -/
def TrieNode.containsWord (n : TrieNode) : List Char → Bool
  | [] => n.is_terminal
  | c :: rest =>
    match lookupChild c n.children with
    | some child => child.containsWord rest
    | none => false

/-- The dictionary (src/trie.rs `Trie`). -/
structure Trie where
  root : TrieNode

/-- Build a trie from a word list (src/trie.rs `Trie::build`): fold
`add_sequence` over the words starting from a letterless root. -/
def Trie.build (words : List (List Char)) : Trie :=
  { root := words.foldl (fun r w => r.add_sequence w)
      (TrieNode.mk none [] false) }

/-- All dictionary words matching a pattern (src/trie.rs `Trie::words`). -/
def Trie.words (t : Trie) (pattern : List Char) : List (List Char) :=
  t.root.words pattern []

/-- Dictionary viability of a pattern (src/trie.rs `Trie::is_viable`). -/
def Trie.is_viable (t : Trie) (chars : List Char) : Bool :=
  t.root.is_viable chars

/-- Uppercase every word (src/trie.rs `Trie::make_words_uppercase`); Rust
`str::to_uppercase` restricted to the ASCII range, which is `Char.toUpper`
per character. -/
def make_words_uppercase (words : List (List Char)) : List (List Char) :=
  words.map (fun w => w.map Char.toUpper)

/-- The in-memory core of `Trie::build_bin_code` (src/trie.rs): after loading
the raw word list from disk it uppercases the words and builds the trie
(`let words = Trie::make_words_uppercase(words); let trie = Trie::build(words)`). -/
def buildFromWordList (words : List (List Char)) : Trie :=
  Trie.build (make_words_uppercase words)

/-! ## Parsing and displaying grids (src/crossword.rs) -/

/-- Split a character stream into lines at `'\n'`, as Rust `str::lines` does.
(Rust drops one trailing empty line and strips `'\r'`; both are irrelevant
here because `Crossword::parse` immediately filters out empty lines and the
grids under study contain no carriage returns.) -/
def splitAux : List Char → List Char → List (List Char)
  | [], acc => [acc.reverse]
  | c :: rest, acc =>
    if c = '\n' then acc.reverse :: splitAux rest [] else splitAux rest (c :: acc)

/-- All lines of a character stream. -/
def splitLines (s : List Char) : List (List Char) :=
  splitAux s []

/-- Internal cleaning (src/crossword.rs `Crossword::clean`): drop newlines and
replace the file-format empty marker `'X'` by the internal `' '`. -/
def clean (s : List Char) : List Char :=
  (s.filter (fun c => c ≠ '\n')).map (fun c => if c = 'X' then ' ' else c)

/-- Parse a crossword from text (src/crossword.rs `Crossword::parse`): the
non-empty lines give the height, the first of them gives the width, and the
stored contents are the cleaned input.  The Rust code indexes `grid[0]`
unconditionally and panics when there is no non-empty line; the panic is
modelled as `none`, every other input yields `some` (the Rust `Ok`). -/
def Crossword.parse (s : List Char) : Option Crossword :=
  match (splitLines s).filter (fun l => l ≠ []) with
  | [] => none
  | g0 :: rest =>
    some { contents := clean s, width := g0.length, height := (g0 :: rest).length }

/-- One displayed row (src/crossword.rs `impl fmt::Display for Crossword`):
the cells of the row, with the internal `' '` rendered as `'X'`. -/
def displayRow (g : Crossword) (r : Nat) : List Char :=
  (List.range g.width).map (fun c =>
    let ch := g.contents.getD (r * g.width + c) ' '
    if ch = ' ' then 'X' else ch)

/-- Join rows with a newline after every row but the last
(`writeln!` is issued only while `row < height - 1`). -/
def joinRows : List (List Char) → List Char
  | [] => []
  | [r] => r
  | r :: rest => r ++ '\n' :: joinRows rest

/-- Display a crossword (src/crossword.rs `impl fmt::Display for Crossword`). -/
def Crossword.display (g : Crossword) : List Char :=
  joinRows ((List.range g.height).map (displayRow g))

/-! ## Slot extraction (src/parse.rs `parse_word_boundaries`) -/

/-- One scanning pass over a single line (the body of the per-row / per-column
loops of `parse_word_boundaries`): walk the cells left to right carrying the
current run as `some (start, length)`; a black square flushes the run, a
non-black cell starts or extends it, and the end of the line flushes a pending
run (`if length > 0` — the state is `some` exactly when `length > 0`). -/
def scanRun : List Char → Nat → Option (Nat × Nat) → List (Nat × Nat)
  | [], _, none => []
  | [], _, some run => [run]
  | c :: rest, i, st =>
    if isBlackChar c then
      match st with
      | none => scanRun rest (i + 1) none
      | some run => run :: scanRun rest (i + 1) none
    else
      match st with
      | none => scanRun rest (i + 1) (some (i, 1))
      | some (s, len) => scanRun rest (i + 1) (some (s, len + 1))

/-- The characters of row `r`, in column order. -/
def rowChars (g : Crossword) (r : Nat) : List Char :=
  (List.range g.width).map (fun c => g.contents.getD (r * g.width + c) ' ')

/-- The characters of column `c`, in row order. -/
def colChars (g : Crossword) (c : Nat) : List Char :=
  (List.range g.height).map (fun r => g.contents.getD (r * g.width + c) ' ')

/-- All word boundaries of a crossword (src/parse.rs `parse_word_boundaries`):
the across runs row by row, then the down runs column by column, keeping only
those of length at least 2. -/
def parse_word_boundaries (g : Crossword) : List WordBoundary :=
  let across := ((List.range g.height).map (fun r =>
    (scanRun (rowChars g r) 0 none).map (fun run =>
      WordBoundary.mk r run.1 run.2 Direction.Across))).flatten
  let down := ((List.range g.width).map (fun c =>
    (scanRun (colChars g c) 0 none).map (fun run =>
      WordBoundary.mk run.1 c run.2 Direction.Down))).flatten
  (across ++ down).filter (fun wb => wb.length > 1)

/-! ## Slot views (src/crossword.rs `WordIterator`) -/

/-- The flat contents index of the `i`-th cell of a slot (the `char_index`
arithmetic of `WordIterator::next`). -/
def posIdx (wb : WordBoundary) (width i : Nat) : Nat :=
  match wb.direction with
  | .Across => wb.start_row * width + wb.start_col + i
  | .Down => (wb.start_row + i) * width + wb.start_col

/-- The flat contents indices of all cells of a slot. -/
def wbPositions (wb : WordBoundary) (width : Nat) : List Nat :=
  (List.range wb.length).map (posIdx wb width)

/-- The characters a slot view yields over a grid, in order (what collecting a
fresh `WordIterator` produces). -/
def viewChars (g : Crossword) (wb : WordBoundary) : List Char :=
  (wbPositions wb g.width).map (fun p => g.contents.getD p ' ')

/-- A slot view (src/crossword.rs `WordIterator`): a grid, a slot, and the
traversal position. -/
structure WordIteratorM where
  crossword : Crossword
  wb : WordBoundary
  index : Nat

/-- A fresh view over a slot (src/crossword.rs `WordIterator::new`). -/
def WordIteratorM.new (g : Crossword) (wb : WordBoundary) : WordIteratorM :=
  { crossword := g, wb := wb, index := 0 }

/-- One step of the view (src/crossword.rs `impl Iterator for WordIterator`):
yields the character at the current cell and the advanced iterator, or nothing
once `index` reaches the slot length. -/
def wiNext (it : WordIteratorM) : Option (Char × WordIteratorM) :=
  if it.index ≥ it.wb.length then none
  else
    some (it.crossword.contents.getD (posIdx it.wb it.crossword.width it.index) ' ',
      { it with index := it.index + 1 })

/-- Collect the remaining characters of a view, fuelled by the number of
remaining steps (the iterator yields exactly `length - index` items). -/
def wiCollectF : Nat → WordIteratorM → List Char
  | 0, _ => []
  | fuel + 1, it =>
    match wiNext it with
    | none => []
    | some (c, it') => c :: wiCollectF fuel it'

/-- Collect the remaining characters of a view (what `self.clone()` followed
by `collect()` produces in the `Display`, `Hash` and `PartialEq` impls). -/
def wiCollect (it : WordIteratorM) : List Char :=
  wiCollectF (it.wb.length - it.index) it

/-- View equality (src/crossword.rs `impl PartialEq for WordIterator`): false
when the slot lengths differ, otherwise zip the two (cloned) traversals and
compare characterwise. -/
def wiEq (a b : WordIteratorM) : Bool :=
  if a.wb.length ≠ b.wb.length then false
  else ((wiCollect a).zip (wiCollect b)).all (fun p => p.1 = p.2)

/-- The data the `Hash` impl feeds to the hasher (src/crossword.rs
`impl Hash for WordIterator` hashes each character of the cloned traversal,
and nothing else): the collected character list. -/
def wiHashInput (it : WordIteratorM) : List Char :=
  wiCollect it

/-- Every cell index read by a slot view lies inside the grid contents. -/
def wbInBounds (wb : WordBoundary) (g : Crossword) : Prop :=
  ∀ i, i < wb.length → posIdx wb g.width i < g.contents.length

instance (wb : WordBoundary) (g : Crossword) : Decidable (wbInBounds wb g) := by
  unfold wbInBounds; infer_instance

/-! ## The Filler (src/fill/filler.rs `Filler::fill`)

`Filler::fill` calls `fill_one_word`, `is_viable_reuse`,
`words_orthogonal_to_word`, `build_square_word_boundary_lookup` and the two
caches from `src/fill/mod.rs` and `src/fill/cache.rs`, which are not present
under src/.  Those are modelled from the spec below, each marked
`Modelled from the spec:`.  The caches are modelled as transparent (§4.5:
keys are immutable character sequences, "a given character pattern has a
fixed answer", no invalidation), so `word_cache.words` is `Trie.words` and
`is_viable_cache.is_viable` is `Trie.is_viable`. -/

/-- The cells (row, col) of a slot. -/
def wbCells (wb : WordBoundary) : List (Nat × Nat) :=
  (List.range wb.length).map (fun i =>
    match wb.direction with
    | .Across => (wb.start_row, wb.start_col + i)
    | .Down => (wb.start_row + i, wb.start_col))

/-- Modelled from the spec: `words_orthogonal_to_word` (src/fill/mod.rs,
missing from src/).  §4.2: "the set of slots that share at least one cell
with S, excluding S itself", materialised from the per-cell lookup built by
`build_square_word_boundary_lookup` over the full slot list. -/
def words_orthogonal_to_word (s : WordBoundary) (wbs : List WordBoundary) :
    List WordBoundary :=
  wbs.filter (fun o => o ≠ s && (wbCells o).any (fun cell => cell ∈ wbCells s))

/-- Modelled from the spec: `fill_one_word` (src/fill/mod.rs, missing from
src/).  §4.6 step c.i: "Build C' = C with the chosen slot's cells overwritten
by w" — write the word's characters at the slot's cell indices, leaving
everything else (including the dimensions) unchanged. -/
def fill_one_word (g : Crossword) (wb : WordBoundary) (w : List Char) : Crossword :=
  { g with contents :=
      ((wbPositions wb g.width).zip w).foldl (fun l pc => l.set pc.1 pc.2) g.contents }

/-- Modelled from the spec: `is_viable_reuse` (src/fill/mod.rs, missing from
src/).  §4.6 step c.ii: every given (orthogonal) slot's view must have a
viable completion in the dictionary; §9: `already_used` "is accumulated by
the viability pass" — a view with no blank (a fully placed word) is rejected
when it was already recorded and recorded otherwise, giving the duplicate-word
prevention the clearing in `Filler::fill` then nullifies across iterations.
Returns the verdict together with the accumulated set (the Rust signature
takes the `FxHashSet` by value and returns it). -/
def is_viable_reuse (cand : Crossword) (orthos : List WordBoundary) (trie : Trie)
    (already_used : List (List Char)) : Bool × List (List Char) :=
  match orthos with
  | [] => (true, already_used)
  | wb :: rest =>
    let view := viewChars cand wb
    if view.any (fun c => c = ' ') then
      if trie.is_viable view then is_viable_reuse cand rest trie already_used
      else (false, already_used)
    else
      if view ∈ already_used then (false, already_used)
      else if trie.is_viable view then is_viable_reuse cand rest trie (view :: already_used)
      else (false, view :: already_used)

/-- Rust `Iterator::min_by_key` keeps the first element whose key is minimal:
fold left, replacing the current best only on a strictly smaller key. -/
def minByKeyAux (key : WordBoundary → Nat × Nat × Nat) (best : WordBoundary) :
    List WordBoundary → WordBoundary
  | [] => best
  | y :: ys =>
    minByKeyAux key
      (if (key y).1 < (key best).1 ∨
          ((key y).1 = (key best).1 ∧ ((key y).2.1 < (key best).2.1 ∨
            ((key y).2.1 = (key best).2.1 ∧ (key y).2.2 < (key best).2.2)))
       then y else best) ys

/-- `min_by_key` over a list (lexicographic `(candidates, start_row, start_col)`
keys, as in `Filler::fill`'s slot selection). -/
def minByKey (key : WordBoundary → Nat × Nat × Nat) :
    List WordBoundary → Option WordBoundary
  | [] => none
  | x :: xs => some (minByKeyAux key x xs)

/-- The slot-selection key of `Filler::fill`:
`(word_cache.words(view).len(), start_row, start_col)` (word cache modelled
as transparent). -/
def slotKey (trie : Trie) (cand : Crossword) (wb : WordBoundary) : Nat × Nat × Nat :=
  ((trie.words (viewChars cand wb)).length, wb.start_row, wb.start_col)

/-- The inner candidate loop of `Filler::fill` (`for potential_fill in
potential_fills`), for `random = false` (no shuffle): fill the chosen slot,
run the orthogonal viability pass, clear `already_used`, and either return
the first complete viable grid (`Sum.inr`), push the viable incomplete one,
or drop the candidate.  Returns the final `already_used` and stack when no
fill completed the grid. -/
def innerLoop (trie : Trie) (cand : Crossword) (toFill : WordBoundary)
    (orthos : List WordBoundary) :
    List (List Char) → List (List Char) → List Crossword →
      (List (List Char) × List Crossword) ⊕ Crossword
  | [], used, stack => Sum.inl (used, stack)
  | w :: fills, used, stack =>
    -- after each pass: `already_used = tmp; already_used.clear();`
    if (is_viable_reuse (fill_one_word cand toFill w) orthos trie used).1 then
      if (fill_one_word cand toFill w).contents.any (fun c => c = ' ') then
        innerLoop trie cand toFill orthos fills [] (fill_one_word cand toFill w :: stack)
      else Sum.inr (fill_one_word cand toFill w)
    else innerLoop trie cand toFill orthos fills [] stack

/-- The outer loop of `Filler::fill`, fuelled: pop a candidate (the stack's
head models the end of the Rust `Vec`), bump the counter, poll the abstract
wall clock, select the blank slot with the fewest candidates (first minimum on
ties), and run the inner loop over its potential fills.  `none` is fuel
exhaustion; `some` wraps the Rust `Result`. -/
def fillLoop (trie : Trie) (wbs : List WordBoundary) (timeUp : Nat → Bool) :
    Nat → Nat → List (List Char) → List Crossword → Option (Except String Crossword)
  | 0, _, _, _ => none
  | fuel + 1, cnt, used, candidates =>
    match candidates with
    | [] => some (Except.error "No valid solution found")
    | cand :: rest =>
      if timeUp (cnt + 1) then
        some (Except.error "Time limit reached")
      else
        match minByKey (slotKey trie cand)
          (wbs.filter (fun wb => (viewChars cand wb).any (fun c => c = ' '))) with
        | none => some (Except.error "No fillable words found")
        | some toFill =>
          match innerLoop trie cand toFill (words_orthogonal_to_word toFill wbs)
            (trie.words (viewChars cand toFill)) used rest with
          | Sum.inr done => some (Except.ok done)
          | Sum.inl us => fillLoop trie wbs timeUp fuel (cnt + 1) us.1 us.2

instance : DecidableEq (Except String Crossword) := fun a b =>
  match a, b with
  | .error x, .error y =>
    if h : x = y then .isTrue (congrArg Except.error h)
    else .isFalse (fun he => h (Except.error.inj he))
  | .ok x, .ok y =>
    if h : x = y then .isTrue (congrArg Except.ok h)
    else .isFalse (fun he => h (Except.ok.inj he))
  | .error _, .ok _ => .isFalse (fun he => Except.noConfusion he)
  | .ok _, .error _ => .isFalse (fun he => Except.noConfusion he)

/-- Entry point of `Filler::fill` for `random = false`: slots are computed
once from the initial grid, `already_used` starts empty, the stack starts as
`vec![initial]`. -/
def fillRun (trie : Trie) (init : Crossword) (timeUp : Nat → Bool) (fuel : Nat) :
    Option (Except String Crossword) :=
  fillLoop trie (parse_word_boundaries init) timeUp fuel 0 [] [init]

/-! ### Ghost-instrumented filler for the `already_used` invariant

The same loops, additionally recording the `already_used` value handed to
each `is_viable_reuse` call.  `innerLoopT`/`fillLoopT` compute exactly what
`innerLoop`/`fillLoop` compute (proved below) plus the trace. -/

/-- `innerLoop` with a trace of the `already_used` arguments passed to
`is_viable_reuse`. -/
def innerLoopT (trie : Trie) (cand : Crossword) (toFill : WordBoundary)
    (orthos : List WordBoundary) :
    List (List Char) → List (List Char) → List Crossword →
      ((List (List Char) × List Crossword) ⊕ Crossword) × List (List (List Char))
  | [], used, stack => (Sum.inl (used, stack), [])
  | w :: fills, used, stack =>
    if (is_viable_reuse (fill_one_word cand toFill w) orthos trie used).1 then
      if (fill_one_word cand toFill w).contents.any (fun c => c = ' ') then
        ((innerLoopT trie cand toFill orthos fills [] (fill_one_word cand toFill w :: stack)).1,
          used :: (innerLoopT trie cand toFill orthos fills []
            (fill_one_word cand toFill w :: stack)).2)
      else (Sum.inr (fill_one_word cand toFill w), [used])
    else
      ((innerLoopT trie cand toFill orthos fills [] stack).1,
        used :: (innerLoopT trie cand toFill orthos fills [] stack).2)

/-- `fillLoop` with a trace of the `already_used` arguments passed to
`is_viable_reuse`. -/
def fillLoopT (trie : Trie) (wbs : List WordBoundary) (timeUp : Nat → Bool) :
    Nat → Nat → List (List Char) → List Crossword →
      Option (Except String Crossword) × List (List (List Char))
  | 0, _, _, _ => (none, [])
  | fuel + 1, cnt, used, candidates =>
    match candidates with
    | [] => (some (Except.error "No valid solution found"), [])
    | cand :: rest =>
      if timeUp (cnt + 1) then
        (some (Except.error "Time limit reached"), [])
      else
        match minByKey (slotKey trie cand)
          (wbs.filter (fun wb => (viewChars cand wb).any (fun c => c = ' '))) with
        | none => (some (Except.error "No fillable words found"), [])
        | some toFill =>
          match (innerLoopT trie cand toFill (words_orthogonal_to_word toFill wbs)
            (trie.words (viewChars cand toFill)) used rest).1 with
          | Sum.inr done =>
            (some (Except.ok done),
              (innerLoopT trie cand toFill (words_orthogonal_to_word toFill wbs)
                (trie.words (viewChars cand toFill)) used rest).2)
          | Sum.inl us =>
            ((fillLoopT trie wbs timeUp fuel (cnt + 1) us.1 us.2).1,
              (innerLoopT trie cand toFill (words_orthogonal_to_word toFill wbs)
                (trie.words (viewChars cand toFill)) used rest).2 ++
                (fillLoopT trie wbs timeUp fuel (cnt + 1) us.1 us.2).2)

/-! ## Specification-side definitions

Predicates the theorems below are stated with: pattern agreement, trie
well-formedness, maximal-run and slot specifications, and the search
invariant. -/

/-- Characterwise agreement of a word character with a pattern character: the
pattern position is the wildcard `' '`, or the characters coincide. -/
def agreeChar (a b : Char) : Prop := b = ' ' ∨ a = b

instance (a b : Char) : Decidable (agreeChar a b) := by
  unfold agreeChar; infer_instance

/-- Well-formed trie nodes: children keys are distinct, each child carries its
key as its letter, and each child is itself well-formed.  `Trie.build` only
produces such nodes (proved below). -/
inductive WFNode : TrieNode → Prop where
  | mk : ∀ (c : Option Char) (children : List (Char × TrieNode)) (t : Bool),
      children.Pairwise (fun a b => a.1 ≠ b.1) →
      (∀ p ∈ children, p.2.contents = some p.1) →
      (∀ p ∈ children, WFNode p.2) →
      WFNode (TrieNode.mk c children t)

/-- Length of the leading block-free prefix of a line. -/
def leadNB : List Char → Nat
  | [] => 0
  | c :: rest => if isBlackChar c then 0 else leadNB rest + 1

/-- A maximal block-free run within a line: positions `k ≤ j < k + b` are
block-free, and the run is bordered by a block or the line boundary on both
sides. -/
def runAt (line : List Char) (k b : Nat) : Prop :=
  1 ≤ b ∧ k + b ≤ line.length ∧
  (∀ j, j < b → isBlackChar (line.getD (k + j) ' ') = false) ∧
  (k = 0 ∨ isBlackChar (line.getD (k - 1) ' ') = true) ∧
  (k + b = line.length ∨ isBlackChar (line.getD (k + b) ' ') = true)

instance (line : List Char) (k b : Nat) : Decidable (runAt line k b) := by
  unfold runAt; infer_instance

/-- Is the cell at (row, col) a block? -/
def isBlackAt (g : Crossword) (r c : Nat) : Bool :=
  isBlackChar (g.contents.getD (r * g.width + c) ' ')

/-- The specification of a slot: a maximal run of non-block cells of length at
least 2 along its direction, fully inside the grid and bordered by a block or
the grid edge on both sides. -/
def isSlotSpec (g : Crossword) (wb : WordBoundary) : Prop :=
  2 ≤ wb.length ∧
  (match wb.direction with
  | Direction.Across =>
      wb.start_row < g.height ∧ wb.start_col + wb.length ≤ g.width ∧
      (∀ j, j < wb.length → isBlackAt g wb.start_row (wb.start_col + j) = false) ∧
      (wb.start_col = 0 ∨ isBlackAt g wb.start_row (wb.start_col - 1) = true) ∧
      (wb.start_col + wb.length = g.width ∨
        isBlackAt g wb.start_row (wb.start_col + wb.length) = true)
  | Direction.Down =>
      wb.start_col < g.width ∧ wb.start_row + wb.length ≤ g.height ∧
      (∀ j, j < wb.length → isBlackAt g (wb.start_row + j) wb.start_col = false) ∧
      (wb.start_row = 0 ∨ isBlackAt g (wb.start_row - 1) wb.start_col = true) ∧
      (wb.start_row + wb.length = g.height ∨
        isBlackAt g (wb.start_row + wb.length) wb.start_col = true))

instance (g : Crossword) (wb : WordBoundary) : Decidable (isSlotSpec g wb) := by
  unfold isSlotSpec
  cases wb.direction <;> infer_instance

/-- The (row, col) of the `i`-th cell of a slot. -/
def cellIdx (wb : WordBoundary) (i : Nat) : Nat × Nat :=
  match wb.direction with
  | Direction.Across => (wb.start_row, wb.start_col + i)
  | Direction.Down => (wb.start_row + i, wb.start_col)

/-- The fold of `List.set` used by `fill_one_word`. -/
def writeAll (l : List Char) (ps : List Nat) (w : List Char) : List Char :=
  (ps.zip w).foldl (fun l2 pc => l2.set pc.1 pc.2) l

/-- The invariant every grid on the search stack satisfies: same dimensions
and contents length as the initial grid; every cell is the initial cell or a
replacement of an initially empty cell by a character of some listed word;
and every slot whose view is complete spells a listed word. -/
def GoodGrid (ws : List (List Char)) (init C : Crossword) : Prop :=
  C.width = init.width ∧ C.height = init.height ∧
  C.contents.length = init.contents.length ∧
  (∀ q, C.contents.getD q ' ' = init.contents.getD q ' ' ∨
    (init.contents.getD q ' ' = ' ' ∧ ∃ x, x ∈ ws ∧ C.contents.getD q ' ' ∈ x)) ∧
  (∀ wb ∈ parse_word_boundaries init,
    (∀ c ∈ viewChars C wb, c ≠ ' ') → viewChars C wb ∈ ws)

/-! ## Trie correctness lemmas -/

lemma WFNode.pairwise_keys {n : TrieNode} (h : WFNode n) :
    n.children.Pairwise (fun a b => a.1 ≠ b.1) := by
  cases h; assumption

lemma WFNode.child_contents {n : TrieNode} (h : WFNode n) :
    ∀ p ∈ n.children, p.2.contents = some p.1 := by
  cases h; assumption

lemma WFNode.child_wf {n : TrieNode} (h : WFNode n) :
    ∀ p ∈ n.children, WFNode p.2 := by
  cases h; assumption

lemma lookupChild_mem {k : Char} {v : TrieNode} :
    ∀ {ch : List (Char × TrieNode)}, lookupChild k ch = some v → (k, v) ∈ ch := by
  intro ch
  induction ch with
  | nil => intro h; simp [lookupChild] at h
  | cons p rest ih =>
    intro h
    by_cases hp : p.1 = k
    · rw [lookupChild, if_pos hp] at h
      cases h
      cases p with
      | mk a b =>
        cases hp
        exact List.mem_cons_self _ _
    · rw [lookupChild, if_neg hp] at h
      exact List.mem_cons_of_mem _ (ih h)

lemma mem_lookupChild {k : Char} {v : TrieNode} {ch : List (Char × TrieNode)}
    (hnd : ch.Pairwise (fun a b => a.1 ≠ b.1)) (hm : (k, v) ∈ ch) :
    lookupChild k ch = some v := by
  induction ch with
  | nil => cases hm
  | cons p rest ih =>
    rcases List.mem_cons.mp hm with h | h
    · rw [← h]; simp [lookupChild]
    · have hk : p.1 ≠ k := by
        have := (List.pairwise_cons.mp hnd).1 (k, v) h
        simpa using this
      rw [lookupChild, if_neg hk]
      exact ih (List.pairwise_cons.mp hnd).2 h

lemma lookupChild_eq_none {k : Char} :
    ∀ {ch : List (Char × TrieNode)},
      lookupChild k ch = none ↔ ∀ p ∈ ch, p.1 ≠ k := by
  intro ch
  induction ch with
  | nil => simp [lookupChild]
  | cons p rest ih =>
    by_cases hp : p.1 = k
    · simp [lookupChild, hp]
    · rw [lookupChild, if_neg hp]
      simp only [List.mem_cons]
      constructor
      · intro h q hq
        rcases hq with hq | hq
        · rw [hq]; exact hp
        · exact ih.mp h q hq
      · intro h
        exact ih.mpr (fun q hq => h q (Or.inr hq))

lemma mem_insertChild {k : Char} {v : TrieNode} {p : Char × TrieNode} :
    ∀ {ch : List (Char × TrieNode)}, p ∈ insertChild k v ch → p = (k, v) ∨ p ∈ ch := by
  intro ch
  induction ch with
  | nil => intro h; simp [insertChild] at h; left; exact h
  | cons q rest ih =>
    intro h
    by_cases hq : q.1 = k
    · rw [insertChild, if_pos hq] at h
      rcases List.mem_cons.mp h with h | h
      · left; exact h
      · right; exact List.mem_cons_of_mem _ h
    · rw [insertChild, if_neg hq] at h
      rcases List.mem_cons.mp h with h | h
      · right; rw [h]; exact List.mem_cons_self _ _
      · rcases ih h with h | h
        · left; exact h
        · right; exact List.mem_cons_of_mem _ h

lemma pairwise_insertChild {k : Char} {v : TrieNode} :
    ∀ {ch : List (Char × TrieNode)}, ch.Pairwise (fun a b => a.1 ≠ b.1) →
      (insertChild k v ch).Pairwise (fun a b => a.1 ≠ b.1) := by
  intro ch
  induction ch with
  | nil => intro _; simp [insertChild]
  | cons q rest ih =>
    intro h
    rcases List.pairwise_cons.mp h with ⟨h1, h2⟩
    by_cases hq : q.1 = k
    · rw [insertChild, if_pos hq]
      refine List.pairwise_cons.mpr ⟨?_, h2⟩
      intro r hr
      have := h1 r hr
      simpa [hq] using this
    · rw [insertChild, if_neg hq]
      refine List.pairwise_cons.mpr ⟨?_, ih h2⟩
      intro r hr
      rcases mem_insertChild hr with h | h
      · rw [h]; exact hq
      · exact h1 r h

lemma lookupChild_insertChild_self {k : Char} {v : TrieNode} :
    ∀ (ch : List (Char × TrieNode)), lookupChild k (insertChild k v ch) = some v := by
  intro ch
  induction ch with
  | nil => simp [insertChild, lookupChild]
  | cons q rest ih =>
    by_cases hq : q.1 = k
    · rw [insertChild, if_pos hq, lookupChild, if_pos rfl]
    · rw [insertChild, if_neg hq, lookupChild, if_neg hq]
      exact ih

lemma lookupChild_insertChild_ne {k k' : Char} {v : TrieNode} (hne : k' ≠ k) :
    ∀ (ch : List (Char × TrieNode)),
      lookupChild k' (insertChild k v ch) = lookupChild k' ch := by
  intro ch
  induction ch with
  | nil =>
    simp only [insertChild, lookupChild]
    rw [if_neg (fun h => hne h.symm)]
  | cons q rest ih =>
    by_cases hq : q.1 = k
    · rw [insertChild, if_pos hq]
      rw [lookupChild, lookupChild]
      have : ¬ (k = k') := fun h => hne h.symm
      rw [if_neg this, if_neg (by rw [hq]; exact this)]
    · rw [insertChild, if_neg hq]
      by_cases hq' : q.1 = k'
      · rw [lookupChild, if_pos hq', lookupChild, if_pos hq']
      · rw [lookupChild, if_neg hq', lookupChild, if_neg hq']
        exact ih

lemma add_sequence_contents : ∀ (n : TrieNode) (w : List Char),
    (n.add_sequence w).contents = n.contents := by
  intro n w
  cases n with
  | mk c ch t =>
    cases w with
    | nil => rfl
    | cons v rest =>
      rw [TrieNode.add_sequence]
      cases lookupChild v ch <;> rfl

/-- A node with no children and an unset terminal flag contains no word. -/
lemma containsWord_leaf (c : Option Char) (w : List Char) :
    (TrieNode.mk c [] false).containsWord w = false := by
  cases w with
  | nil => rfl
  | cons a rest => rfl

lemma wf_add_sequence : ∀ (w : List Char) (n : TrieNode), WFNode n →
    WFNode (n.add_sequence w) := by
  intro w
  induction w with
  | nil =>
    intro n h
    cases n with
    | mk c ch t =>
      rw [TrieNode.add_sequence]
      cases h
      exact WFNode.mk _ _ _ (by assumption) (by assumption) (by assumption)
  | cons v rest ih =>
    intro n h
    cases n with
    | mk c ch t =>
      rw [TrieNode.add_sequence]
      cases hl : lookupChild v ch with
      | some child =>
        have hmem : (v, child) ∈ ch := lookupChild_mem hl
        refine WFNode.mk _ _ _ (pairwise_insertChild h.pairwise_keys) ?_ ?_
        · intro p hp
          rcases mem_insertChild hp with hp | hp
          · rw [hp]
            rw [add_sequence_contents]
            exact h.child_contents (v, child) hmem
          · exact h.child_contents p hp
        · intro p hp
          rcases mem_insertChild hp with hp | hp
          · rw [hp]
            exact ih child (h.child_wf (v, child) hmem)
          · exact h.child_wf p hp
      | none =>
        refine WFNode.mk _ _ _ (pairwise_insertChild h.pairwise_keys) ?_ ?_
        · intro p hp
          rcases mem_insertChild hp with hp | hp
          · rw [hp]
            rw [add_sequence_contents]
            rfl
          · exact h.child_contents p hp
        · intro p hp
          rcases mem_insertChild hp with hp | hp
          · rw [hp]
            exact ih _ (WFNode.mk _ _ _ (by simp) (by simp) (by simp))
          · exact h.child_wf p hp

lemma containsWord_add_sequence : ∀ (v : List Char) (n : TrieNode) (w : List Char),
    ((n.add_sequence v).containsWord w = true ↔ w = v ∨ n.containsWord w = true) := by
  intro v
  induction v with
  | nil =>
    intro n w
    cases n with
    | mk c ch t =>
      cases w with
      | nil => simp [TrieNode.add_sequence, TrieNode.containsWord, TrieNode.is_terminal]
      | cons b wrest =>
        rw [TrieNode.add_sequence]
        rw [TrieNode.containsWord, TrieNode.containsWord]
        simp [TrieNode.children]
  | cons a vrest ih =>
    intro n w
    cases n with
    | mk c ch t =>
      rw [TrieNode.add_sequence]
      cases hl : lookupChild a ch with
      | some child =>
        cases w with
        | nil =>
          rw [TrieNode.containsWord, TrieNode.containsWord]
          simp [TrieNode.is_terminal]
        | cons b wrest =>
          rw [TrieNode.containsWord, TrieNode.containsWord]
          simp only [TrieNode.children]
          by_cases hb : b = a
          · subst hb
            rw [lookupChild_insertChild_self, hl]
            rw [ih child wrest]
            simp
          · rw [lookupChild_insertChild_ne hb]
            simp only [List.cons.injEq]
            cases lookupChild b ch with
            | none => simp [hb]
            | some child' => simp [hb]
      | none =>
        cases w with
        | nil =>
          rw [TrieNode.containsWord, TrieNode.containsWord]
          simp [TrieNode.is_terminal]
        | cons b wrest =>
          rw [TrieNode.containsWord, TrieNode.containsWord]
          simp only [TrieNode.children]
          by_cases hb : b = a
          · subst hb
            rw [lookupChild_insertChild_self, hl]
            rw [ih _ wrest]
            rw [containsWord_leaf]
            simp
          · rw [lookupChild_insertChild_ne hb]
            simp only [List.cons.injEq]
            cases lookupChild b ch with
            | none => simp [hb]
            | some child' => simp [hb]

lemma containsWord_foldl (ws : List (List Char)) : ∀ (n : TrieNode) (w : List Char),
    ((ws.foldl (fun r v => r.add_sequence v) n).containsWord w = true ↔
      w ∈ ws ∨ n.containsWord w = true) := by
  induction ws with
  | nil => intro n w; simp
  | cons v vs ih =>
    intro n w
    rw [List.foldl_cons, ih]
    rw [containsWord_add_sequence]
    simp only [List.mem_cons]
    tauto

/-- The built trie contains exactly the words of the list. -/
lemma containsWord_build (ws : List (List Char)) (w : List Char) :
    ((Trie.build ws).root.containsWord w = true ↔ w ∈ ws) := by
  rw [Trie.build]
  rw [containsWord_foldl]
  rw [containsWord_leaf]
  simp

lemma wf_build (ws : List (List Char)) : WFNode (Trie.build ws).root := by
  rw [Trie.build]
  have : ∀ (l : List (List Char)) (n : TrieNode), WFNode n →
      WFNode (l.foldl (fun r v => r.add_sequence v) n) := by
    intro l
    induction l with
    | nil => intro n h; exact h
    | cons v vs ih => intro n h; exact ih _ (wf_add_sequence v n h)
  exact this ws _ (WFNode.mk _ _ _ (by simp) (by simp) (by simp))

lemma build_root_contents (ws : List (List Char)) : (Trie.build ws).root.contents = none := by
  rw [Trie.build]
  have : ∀ (l : List (List Char)) (n : TrieNode),
      (l.foldl (fun r v => r.add_sequence v) n).contents = n.contents := by
    intro l
    induction l with
    | nil => intro n; rfl
    | cons v vs ih => intro n; rw [List.foldl_cons, ih, add_sequence_contents]
  rw [this]
  rfl

lemma containsWord_nil (n : TrieNode) : n.containsWord [] = n.is_terminal := by
  cases n; rfl

lemma containsWord_cons (n : TrieNode) (c : Char) (rest : List Char) :
    n.containsWord (c :: rest) =
      match lookupChild c n.children with
      | some child => child.containsWord rest
      | none => false := by
  cases n; rfl

/-- Unfolding of `TrieNode.words` on the empty pattern, with the accumulated
prefix made explicit. -/
lemma words_nil (n : TrieNode) (acc : List Char) :
    n.words [] acc = if n.is_terminal then [acc ++ n.contents.toList] else [] := by
  cases n with
  | mk c ch t =>
    cases c <;>
      simp [TrieNode.words, TrieNode.contents, TrieNode.is_terminal, Option.toList]

/-- Unfolding of `TrieNode.words` on a pattern character, with the accumulated
prefix made explicit. -/
lemma words_cons (n : TrieNode) (c : Char) (rest acc : List Char) :
    n.words (c :: rest) acc =
      (if c = ' ' then
        ((n.children.map (fun q => q.2.words rest (acc ++ n.contents.toList))).flatten)
      else
        match lookupChild c n.children with
        | some child => child.words rest (acc ++ n.contents.toList)
        | none => []) := by
  cases n with
  | mk c0 ch t =>
    cases c0 <;>
      simp [TrieNode.words, TrieNode.contents, TrieNode.children, Option.toList]

/-- Membership in `TrieNode.words`: exactly the words of the (well-formed)
subtree whose path agrees with the pattern, prefixed by the accumulator and
this node's letter. -/
lemma words_mem_iff : ∀ (p : List Char) (n : TrieNode), WFNode n → ∀ (acc w : List Char),
    (w ∈ n.words p acc ↔
      ∃ s, w = (acc ++ n.contents.toList) ++ s ∧ List.Forall₂ agreeChar s p ∧
        n.containsWord s = true) := by
  intro p
  induction p with
  | nil =>
    intro n hwf acc w
    rw [words_nil]
    constructor
    · intro hmem
      by_cases ht : n.is_terminal
      · rw [if_pos ht] at hmem
        refine ⟨[], ?_, List.Forall₂.nil, ?_⟩
        · simpa using List.mem_singleton.mp hmem
        · rw [containsWord_nil]; exact ht
      · rw [if_neg ht] at hmem
        cases hmem
    · rintro ⟨s, hw, hf, hc⟩
      have hs : s = [] := List.forall₂_nil_right_iff.mp hf
      subst hs
      rw [containsWord_nil] at hc
      rw [if_pos hc]
      simpa using hw
  | cons c rest ih =>
    intro n hwf acc w
    rw [words_cons]
    by_cases hc : c = ' '
    · subst hc
      rw [if_pos rfl]
      rw [List.mem_flatten]
      constructor
      · rintro ⟨l, hl, hwl⟩
        rcases List.mem_map.mp hl with ⟨q, hq, rfl⟩
        have hq2 := hwf.child_contents q hq
        rcases (ih q.2 (hwf.child_wf q hq) _ w).mp hwl with ⟨s', hw, hf, hcw⟩
        refine ⟨q.1 :: s', ?_, ?_, ?_⟩
        · rw [hw, hq2]
          simp [Option.toList]
        · exact List.forall₂_cons.mpr ⟨Or.inl rfl, hf⟩
        · rw [containsWord_cons]
          rw [mem_lookupChild hwf.pairwise_keys (by rw [Prod.mk.eta]; exact hq)]
          exact hcw
      · rintro ⟨s, hw, hf, hcw⟩
        rcases List.forall₂_cons_right_iff.mp hf with ⟨a, s', _, hf', rfl⟩
        rw [containsWord_cons] at hcw
        cases hl : lookupChild a n.children with
        | none => rw [hl] at hcw; cases hcw
        | some child =>
          rw [hl] at hcw
          have hmem : (a, child) ∈ n.children := lookupChild_mem hl
          refine ⟨child.words rest (acc ++ n.contents.toList), ?_, ?_⟩
          · exact List.mem_map.mpr ⟨(a, child), hmem, rfl⟩
          · refine (ih child (hwf.child_wf _ hmem) _ w).mpr ⟨s', ?_, hf', hcw⟩
            rw [hw]
            have := hwf.child_contents (a, child) hmem
            rw [this]
            simp [Option.toList]
    · rw [if_neg hc]
      cases hl : lookupChild c n.children with
      | none =>
        constructor
        · intro hmem; cases hmem
        · rintro ⟨s, hw, hf, hcw⟩
          rcases List.forall₂_cons_right_iff.mp hf with ⟨a, s', hag, hf', rfl⟩
          have ha : a = c := by
            rcases hag with hag | hag
            · exact absurd hag hc
            · exact hag
          subst ha
          rw [containsWord_cons, hl] at hcw
          cases hcw
      | some child =>
        have hmem : (c, child) ∈ n.children := lookupChild_mem hl
        rw [ih child (hwf.child_wf _ hmem) _ w]
        have hcc := hwf.child_contents (c, child) hmem
        constructor
        · rintro ⟨s', hw, hf', hcw⟩
          refine ⟨c :: s', ?_, ?_, ?_⟩
          · rw [hw, hcc]; simp [Option.toList]
          · exact List.forall₂_cons.mpr ⟨Or.inr rfl, hf'⟩
          · rw [containsWord_cons, hl]; exact hcw
        · rintro ⟨s, hw, hf, hcw⟩
          rcases List.forall₂_cons_right_iff.mp hf with ⟨a, s', hag, hf', rfl⟩
          have ha : a = c := by
            rcases hag with hag | hag
            · exact absurd hag hc
            · exact hag
          subst ha
          rw [containsWord_cons, hl] at hcw
          refine ⟨s', ?_, hf', hcw⟩
          rw [hw, hcc]
          simp [Option.toList]

/-- `TrieNode.is_viable` holds exactly when some word of the (well-formed)
subtree agrees with the pattern. -/
lemma is_viable_iff : ∀ (p : List Char) (n : TrieNode), WFNode n →
    (n.is_viable p = true ↔
      ∃ s, List.Forall₂ agreeChar s p ∧ n.containsWord s = true) := by
  intro p
  induction p with
  | nil =>
    intro n hwf
    rw [TrieNode.is_viable]
    constructor
    · intro ht
      exact ⟨[], List.Forall₂.nil, by rw [containsWord_nil]; exact ht⟩
    · rintro ⟨s, hf, hc⟩
      have hs : s = [] := List.forall₂_nil_right_iff.mp hf
      subst hs
      rw [containsWord_nil] at hc
      exact hc
  | cons c rest ih =>
    intro n hwf
    rw [TrieNode.is_viable]
    by_cases hc : c = ' '
    · subst hc
      rw [if_pos rfl]
      rw [List.any_eq_true]
      constructor
      · rintro ⟨q, hq, hv⟩
        rcases (ih q.2 (hwf.child_wf q hq)).mp hv with ⟨s', hf', hcw⟩
        refine ⟨q.1 :: s', List.forall₂_cons.mpr ⟨Or.inl rfl, hf'⟩, ?_⟩
        rw [containsWord_cons]
        rw [mem_lookupChild hwf.pairwise_keys (by rw [Prod.mk.eta]; exact hq)]
        exact hcw
      · rintro ⟨s, hf, hcw⟩
        rcases List.forall₂_cons_right_iff.mp hf with ⟨a, s', _, hf', rfl⟩
        rw [containsWord_cons] at hcw
        cases hl : lookupChild a n.children with
        | none => rw [hl] at hcw; cases hcw
        | some child =>
          rw [hl] at hcw
          have hmem : (a, child) ∈ n.children := lookupChild_mem hl
          exact ⟨(a, child), hmem,
            (ih child (hwf.child_wf _ hmem)).mpr ⟨s', hf', hcw⟩⟩
    · rw [if_neg hc]
      cases hl : lookupChild c n.children with
      | none =>
        constructor
        · intro h; cases h
        · rintro ⟨s, hf, hcw⟩
          rcases List.forall₂_cons_right_iff.mp hf with ⟨a, s', hag, hf', rfl⟩
          have ha : a = c := by
            rcases hag with hag | hag
            · exact absurd hag hc
            · exact hag
          subst ha
          rw [containsWord_cons, hl] at hcw
          cases hcw
      | some child =>
        have hmem : (c, child) ∈ n.children := lookupChild_mem hl
        rw [ih child (hwf.child_wf _ hmem)]
        constructor
        · rintro ⟨s', hf', hcw⟩
          refine ⟨c :: s', List.forall₂_cons.mpr ⟨Or.inr rfl, hf'⟩, ?_⟩
          rw [containsWord_cons, hl]
          exact hcw
        · rintro ⟨s, hf, hcw⟩
          rcases List.forall₂_cons_right_iff.mp hf with ⟨a, s', hag, hf', rfl⟩
          have ha : a = c := by
            rcases hag with hag | hag
            · exact absurd hag hc
            · exact hag
          subst ha
          rw [containsWord_cons, hl] at hcw
          exact ⟨s', hf', hcw⟩

/-- Membership in the built dictionary's `matches`: exactly the listed words
whose characters agree with the pattern. -/
lemma build_words_mem (ws : List (List Char)) (p w : List Char) :
    (w ∈ (Trie.build ws).words p ↔ w ∈ ws ∧ List.Forall₂ agreeChar w p) := by
  rw [Trie.words]
  rw [words_mem_iff p _ (wf_build ws) [] w]
  rw [build_root_contents]
  simp only [Option.toList, List.append_nil, List.nil_append]
  constructor
  · rintro ⟨s, rfl, hf, hc⟩
    exact ⟨(containsWord_build ws _).mp hc, hf⟩
  · rintro ⟨hmem, hf⟩
    exact ⟨w, rfl, hf, (containsWord_build ws w).mpr hmem⟩

/-- Viability over the built dictionary: some listed word agrees with the
pattern. -/
lemma build_is_viable_iff (ws : List (List Char)) (p : List Char) :
    ((Trie.build ws).is_viable p = true ↔
      ∃ s, s ∈ ws ∧ List.Forall₂ agreeChar s p) := by
  rw [Trie.is_viable]
  rw [is_viable_iff p _ (wf_build ws)]
  constructor
  · rintro ⟨s, hf, hc⟩
    exact ⟨s, (containsWord_build ws s).mp hc, hf⟩
  · rintro ⟨s, hmem, hf⟩
    exact ⟨s, hf, (containsWord_build ws s).mpr hmem⟩

/-- Characterwise agreement as lengths plus positionwise equality at the
pattern's non-space positions. -/
lemma forall₂_agreeChar_iff : ∀ (w p : List Char),
    (List.Forall₂ agreeChar w p ↔
      (w.length = p.length ∧
        ∀ i, i < p.length → p.getD i ' ' ≠ ' ' → w.getD i ' ' = p.getD i ' ')) := by
  intro w
  induction w with
  | nil =>
    intro p
    cases p with
    | nil => simp
    | cons b q => simp
  | cons a w' ih =>
    intro p
    cases p with
    | nil => simp
    | cons b q =>
      rw [List.forall₂_cons]
      rw [ih q]
      constructor
      · rintro ⟨hab, hlen, hrest⟩
        refine ⟨by simpa using hlen, ?_⟩
        intro i hi hne
        cases i with
        | zero =>
          simp only [List.getD_cons_zero] at hne ⊢
          rcases hab with h | h
          · exact absurd h hne
          · exact h
        | succ j =>
          simp only [List.getD_cons_succ] at hne ⊢
          exact hrest j (by simpa using hi) hne
      · rintro ⟨hlen, hall⟩
        refine ⟨?_, by simpa using hlen, ?_⟩
        · by_cases hb : b = ' '
          · exact Or.inl hb
          · refine Or.inr ?_
            have := hall 0 (by simp) (by simpa using hb)
            simpa using this
        · intro j hj hne
          have := hall (j + 1) (by simpa using hj) (by simpa using hne)
          simpa using this

/-- C2: for every built dictionary and pattern, `matches` returns exactly the
listed words of the pattern's length that agree with the pattern at every
non-space position: every returned word has the pattern's length, agrees with
it at each non-space position and occurs in the original word list, and every
such listed word is returned. -/
theorem trie_matches_characterization (ws : List (List Char)) (p w : List Char) :
    w ∈ (Trie.build ws).words p ↔
      (w ∈ ws ∧ w.length = p.length ∧
        ∀ i, i < p.length → p.getD i ' ' ≠ ' ' → w.getD i ' ' = p.getD i ' ') := by
  rw [build_words_mem, forall₂_agreeChar_iff]

/-- C3: for every built dictionary and pattern, `is_viable` returns true
exactly when `matches` returns a non-empty list. -/
theorem trie_is_viable_iff_matches_nonempty (ws : List (List Char)) (p : List Char) :
    ((Trie.build ws).is_viable p = true ↔ (Trie.build ws).words p ≠ []) := by
  rw [build_is_viable_iff]
  constructor
  · rintro ⟨s, hmem, hf⟩ hnil
    have hs : s ∈ (Trie.build ws).words p := (build_words_mem ws p s).mpr ⟨hmem, hf⟩
    rw [hnil] at hs
    cases hs
  · intro hne
    rcases List.exists_mem_of_ne_nil _ hne with ⟨w, hw⟩
    rcases (build_words_mem ws p w).mp hw with ⟨hmem, hf⟩
    exact ⟨w, hmem, hf⟩

lemma toUpper_def (c : Char) :
    c.toUpper = if c.toNat ≥ 97 ∧ c.toNat ≤ 122 then Char.ofNat (c.toNat - 32) else c := rfl

/-- ASCII uppercasing is idempotent. -/
lemma toUpper_toUpper (c : Char) : c.toUpper.toUpper = c.toUpper := by
  by_cases h : c.toNat ≥ 97 ∧ c.toNat ≤ 122
  · have h1 : c.toUpper = Char.ofNat (c.toNat - 32) := by rw [toUpper_def, if_pos h]
    have hv : (c.toNat - 32).isValidChar := by
      rcases h with ⟨ha, hb⟩
      constructor
      omega
    have ht : (Char.ofNat (c.toNat - 32)).toNat = c.toNat - 32 := by
      unfold Char.ofNat
      rw [dif_pos hv]
      rfl
    rw [h1, toUpper_def, ht, if_neg (by omega)]
  · have h1 : c.toUpper = c := by rw [toUpper_def, if_neg h]
    rw [h1, h1]

lemma make_words_uppercase_idem (ws : List (List Char)) :
    make_words_uppercase (make_words_uppercase ws) = make_words_uppercase ws := by
  rw [make_words_uppercase, make_words_uppercase, List.map_map]
  refine List.map_congr_left ?_
  intro w _
  show (w.map Char.toUpper).map Char.toUpper = w.map Char.toUpper
  rw [List.map_map]
  refine List.map_congr_left ?_
  intro c _
  exact toUpper_toUpper c

/-- C8: building a dictionary from a word list (the `build_bin_code` pipeline)
uppercases each word before inserting it into the prefix tree; consequently
the dictionary built from a word list answers every `matches` and `is_viable`
query identically to the dictionary built from the uppercased list. -/
theorem trie_build_uppercase_consistent (ws : List (List Char)) :
    buildFromWordList ws = Trie.build (make_words_uppercase ws) ∧
    (∀ p, (buildFromWordList (make_words_uppercase ws)).words p =
      (buildFromWordList ws).words p) ∧
    (∀ p, (buildFromWordList (make_words_uppercase ws)).is_viable p =
      (buildFromWordList ws).is_viable p) := by
  have hb : buildFromWordList (make_words_uppercase ws) = buildFromWordList ws := by
    rw [buildFromWordList, buildFromWordList, make_words_uppercase_idem]
  exact ⟨rfl, fun p => by rw [hb], fun p => by rw [hb]⟩

/-! ## Characterizing the line scanner (towards C7) -/

lemma leadNB_le (l : List Char) : leadNB l ≤ l.length := by
  induction l with
  | nil => simp [leadNB]
  | cons c rest ih =>
    rw [leadNB]
    by_cases hc : isBlackChar c
    · rw [if_pos hc]; simp
    · rw [if_neg hc]; simpa using ih

lemma leadNB_nonblack (l : List Char) :
    ∀ j, j < leadNB l → isBlackChar (l.getD j ' ') = false := by
  induction l with
  | nil => intro j hj; simp [leadNB] at hj
  | cons c rest ih =>
    intro j hj
    rw [leadNB] at hj
    by_cases hc : isBlackChar c
    · rw [if_pos hc] at hj; omega
    · rw [if_neg hc] at hj
      cases j with
      | zero => simpa using Bool.of_not_eq_true hc
      | succ j' => rw [List.getD_cons_succ]; exact ih j' (by omega)

lemma leadNB_boundary (l : List Char) :
    leadNB l = l.length ∨ isBlackChar (l.getD (leadNB l) ' ') = true := by
  induction l with
  | nil => left; rfl
  | cons c rest ih =>
    rw [leadNB]
    by_cases hc : isBlackChar c
    · right; rw [if_pos hc]; simpa using hc
    · rw [if_neg hc]
      rcases ih with h | h
      · left; simp [h]
      · right; rw [List.getD_cons_succ]; exact h

lemma getD_drop (l : List Char) : ∀ (d j : Nat) (x : Char),
    (l.drop d).getD j x = l.getD (d + j) x := by
  induction l with
  | nil => intro d j x; simp
  | cons c rest ih =>
    intro d j x
    cases d with
    | zero => simp
    | succ d' =>
      rw [List.drop_succ_cons, ih d' j x, Nat.succ_add, List.getD_cons_succ]

lemma getD_map_range (n : Nat) (f : Nat → Char) (j : Nat) (d : Char) :
    ((List.range n).map f).getD j d = if j < n then f j else d := by
  by_cases hj : j < n
  · rw [if_pos hj]
    rw [List.getD_eq_getElem?_getD]
    rw [List.getElem?_eq_getElem (by simpa using hj)]
    simp
  · rw [if_neg hj]
    rw [List.getD_eq_getElem?_getD]
    rw [List.getElem?_eq_none (by simpa using hj)]
    rfl

/-- Closing the active run: scanning with state `some (s, len)` first emits
that run extended by the leading block-free prefix, then continues past the
first block with no active run. -/
lemma scanRun_some_eq : ∀ (line : List Char) (i s len : Nat),
    scanRun line i (some (s, len)) =
      (s, len + leadNB line) ::
        scanRun (line.drop (leadNB line + 1)) (i + (leadNB line + 1)) none := by
  intro line
  induction line with
  | nil => intro i s len; simp [scanRun, leadNB]
  | cons c rest ih =>
    intro i s len
    by_cases hc : isBlackChar c
    · rw [scanRun]
      rw [if_pos hc]
      rw [leadNB, if_pos hc]
      simp
    · rw [scanRun]
      rw [if_neg hc]
      rw [leadNB, if_neg hc]
      rw [ih (i + 1) s (len + 1)]
      have h1 : len + 1 + leadNB rest = len + (leadNB rest + 1) := by omega
      have h2 : i + 1 + (leadNB rest + 1) = i + (leadNB rest + 1 + 1) := by omega
      rw [h1, h2]
      rfl

lemma runAt_zero_iff (c : Char) (rest : List Char) (hc : isBlackChar c = false) (b : Nat) :
    runAt (c :: rest) 0 b ↔ b = leadNB rest + 1 := by
  constructor
  · rintro ⟨hb, hlen, hcells, _, hright⟩
    have hble : b - 1 ≤ leadNB rest ∨ leadNB rest = rest.length := by
      by_cases hL : leadNB rest = rest.length
      · right; exact hL
      · left
        rcases leadNB_boundary rest with h | h
        · exact absurd h hL
        · by_contra hgt
          have : isBlackChar ((c :: rest).getD (0 + (leadNB rest + 1)) ' ') = false :=
            hcells (leadNB rest + 1) (by omega)
          rw [Nat.zero_add, List.getD_cons_succ] at this
          rw [this] at h
          cases h
    have hbge : leadNB rest + 1 ≤ b := by
      rcases hright with h | h
      · simp only [List.length_cons] at h
        have := leadNB_le rest
        -- run reaches the end of the line, so every rest position is nonblack
        by_contra hlt
        push_neg at hlt
        rcases leadNB_boundary rest with h2 | h2
        · omega
        · have hb2 : isBlackChar ((c :: rest).getD (0 + (leadNB rest + 1)) ' ') = false := by
            refine hcells (leadNB rest + 1) ?_
            have := leadNB_le rest
            omega
          rw [Nat.zero_add, List.getD_cons_succ] at hb2
          rw [hb2] at h2
          cases h2
      · rw [Nat.zero_add] at h
        by_contra hlt
        push_neg at hlt
        cases b with
        | zero => omega
        | succ b' =>
          rw [List.getD_cons_succ] at h
          have : isBlackChar (rest.getD b' ' ') = false := leadNB_nonblack rest b' (by omega)
          rw [this] at h
          cases h
    simp only [List.length_cons] at hlen
    have := leadNB_le rest
    omega
  · rintro rfl
    refine ⟨by omega, ?_, ?_, Or.inl rfl, ?_⟩
    · have := leadNB_le rest
      simp only [List.length_cons]
      omega
    · intro j hj
      cases j with
      | zero => simpa using hc
      | succ j' =>
        rw [Nat.zero_add, List.getD_cons_succ]
        exact leadNB_nonblack rest j' (by omega)
    · rcases leadNB_boundary rest with h | h
      · left; simp [h]
      · right; rw [Nat.zero_add, List.getD_cons_succ]; exact h

lemma runAt_cons_black (c : Char) (rest : List Char) (hc : isBlackChar c = true)
    (k b : Nat) :
    runAt (c :: rest) k b ↔ ∃ k', k = k' + 1 ∧ runAt rest k' b := by
  constructor
  · rintro ⟨hb, hlen, hcells, hleft, hright⟩
    cases k with
    | zero =>
      have := hcells 0 (by omega)
      rw [Nat.zero_add, List.getD_cons_zero] at this
      rw [this] at hc
      cases hc
    | succ k' =>
      refine ⟨k', rfl, hb, ?_, ?_, ?_, ?_⟩
      · simp only [List.length_cons] at hlen; omega
      · intro j hj
        have := hcells j hj
        rw [Nat.succ_add, List.getD_cons_succ] at this
        exact this
      · cases k' with
        | zero => left; rfl
        | succ k'' =>
          rcases hleft with h | h
          · cases h
          · right
            rw [show k'' + 1 + 1 - 1 = k'' + 1 + 1 - 1 from rfl] at h
            have he : (k'' + 1 + 1 - 1) = (k'' + 1 - 1) + 1 := by omega
            rw [he, List.getD_cons_succ] at h
            exact h
      · rcases hright with h | h
        · left; simp only [List.length_cons] at h; omega
        · right
          rw [Nat.succ_add, List.getD_cons_succ] at h
          exact h
  · rintro ⟨k', rfl, hb, hlen, hcells, hleft, hright⟩
    refine ⟨hb, by simp only [List.length_cons]; omega, ?_, ?_, ?_⟩
    · intro j hj
      rw [Nat.succ_add, List.getD_cons_succ]
      exact hcells j hj
    · right
      cases k' with
      | zero => simpa using hc
      | succ k'' =>
        have he : (k'' + 1 + 1 - 1) = (k'' + 1 - 1) + 1 := by omega
        rw [he, List.getD_cons_succ]
        rcases hleft with h | h
        · cases h
        · exact h
    · rcases hright with h | h
      · left; simp only [List.length_cons]; omega
      · right
        rw [Nat.succ_add, List.getD_cons_succ]
        exact h

/-- A maximal run strictly right of a bordering block, shifted onto the
dropped suffix. -/
lemma runAt_drop (l : List Char) (d : Nat) (hd : 1 ≤ d) (hdl : d ≤ l.length)
    (hblack : isBlackChar (l.getD (d - 1) ' ') = true) (k b : Nat) :
    runAt l (d + k) b ↔ runAt (l.drop d) k b := by
  have hlen : (l.drop d).length = l.length - d := by simp
  constructor
  · rintro ⟨hb, hl, hcells, hleft0, hright⟩
    refine ⟨hb, by omega, ?_, ?_, ?_⟩
    · intro j hj
      rw [getD_drop]
      have := hcells j hj
      rw [show d + k + j = d + (k + j) from by omega] at this
      exact this
    · cases k with
      | zero => left; rfl
      | succ k'' =>
        right
        rw [getD_drop]
        rcases hleft0 with h | h
        · omega
        · rw [show d + (k'' + 1) - 1 = d + (k'' + 1 - 1) from by omega] at h
          exact h
    · rcases hright with h | h
      · left; omega
      · right
        rw [getD_drop]
        rw [show d + k + b = d + (k + b) from by omega] at h
        exact h
  · rintro ⟨hb, hl, hcells, hleft, hright⟩
    refine ⟨hb, by omega, ?_, ?_, ?_⟩
    · intro j hj
      have := hcells j hj
      rw [getD_drop] at this
      rw [show d + k + j = d + (k + j) from by omega]
      exact this
    · right
      cases k with
      | zero => rw [show d + 0 - 1 = d - 1 from by omega]; exact hblack
      | succ k'' =>
        rcases hleft with h | h
        · cases h
        · rw [getD_drop] at h
          rw [show d + (k'' + 1) - 1 = d + (k'' + 1 - 1) from by omega]
          exact h
    · rcases hright with h | h
      · left; omega
      · right
        rw [getD_drop] at h
        rw [show d + k + b = d + (k + b) from by omega]
        exact h

lemma scanRun_cons_none (c : Char) (rest : List Char) (i : Nat) :
    scanRun (c :: rest) i none =
      if isBlackChar c then scanRun rest (i + 1) none
      else scanRun rest (i + 1) (some (i, 1)) := by
  by_cases hc : isBlackChar c <;> simp [scanRun, hc]

lemma scanRun_cons_some (c : Char) (rest : List Char) (i s ln : Nat) :
    scanRun (c :: rest) i (some (s, ln)) =
      if isBlackChar c then (s, ln) :: scanRun rest (i + 1) none
      else scanRun rest (i + 1) (some (s, ln + 1)) := by
  by_cases hc : isBlackChar c <;> simp [scanRun, hc]

/-- Any maximal run of `c :: rest` with a block-free head starting past 0
starts past the whole leading block-free prefix and its bordering block. -/
lemma runAt_pos_lower (c : Char) (rest : List Char) (hc : isBlackChar c = false)
    (k b : Nat) (hk : 1 ≤ k) (h : runAt (c :: rest) k b) : leadNB rest + 2 ≤ k := by
  rcases h with ⟨hb, hlen, hcells, hleft, hright⟩
  rcases hleft with h0 | hbl
  · omega
  · cases k with
    | zero => omega
    | succ k' =>
      cases k' with
      | zero =>
        rw [show 0 + 1 - 1 = 0 from rfl, List.getD_cons_zero] at hbl
        rw [hbl] at hc
        cases hc
      | succ k'' =>
        rw [show k'' + 1 + 1 - 1 = k'' + 1 from by omega, List.getD_cons_succ] at hbl
        by_contra hlt
        have : isBlackChar (rest.getD k'' ' ') = false :=
          leadNB_nonblack rest k'' (by omega)
        rw [this] at hbl
        cases hbl

/-- Membership in the ground scanner: exactly the maximal block-free runs of
the line, shifted by the running index. -/
lemma scanRun_none_mem : ∀ (N : Nat) (line : List Char), line.length ≤ N →
    ∀ (i a b : Nat),
      ((a, b) ∈ scanRun line i none ↔ ∃ k, a = i + k ∧ runAt line k b) := by
  intro N
  induction N with
  | zero =>
    intro line hN i a b
    have hline : line = [] := List.eq_nil_of_length_eq_zero (by omega)
    subst hline
    constructor
    · intro h
      rw [show scanRun ([] : List Char) i none = [] from rfl] at h
      cases h
    · rintro ⟨k, _, _, hlen, _⟩
      simp only [List.length_nil] at hlen
      omega
  | succ N ih =>
    intro line hN i a b
    cases line with
    | nil =>
      constructor
      · intro h
        rw [show scanRun ([] : List Char) i none = [] from rfl] at h
        cases h
      · rintro ⟨k, _, _, hlen, _⟩
        simp only [List.length_nil] at hlen
        omega
    | cons c rest =>
      rw [scanRun_cons_none]
      by_cases hc : isBlackChar c
      · rw [if_pos hc]
        rw [ih rest (by simp at hN; omega) (i + 1) a b]
        constructor
        · rintro ⟨k', rfl, hr⟩
          exact ⟨k' + 1, by omega, (runAt_cons_black c rest hc _ b).mpr ⟨k', rfl, hr⟩⟩
        · rintro ⟨k, rfl, hr⟩
          rcases (runAt_cons_black c rest hc k b).mp hr with ⟨k', rfl, hr'⟩
          exact ⟨k', by omega, hr'⟩
      · rw [if_neg hc]
        rw [scanRun_some_eq]
        have hcF : isBlackChar c = false := Bool.of_not_eq_true hc
        rw [List.mem_cons]
        have hsuffix : (rest.drop (leadNB rest + 1)).length ≤ N := by
          simp only [List.length_drop]
          simp only [List.length_cons] at hN
          omega
        rw [ih _ hsuffix (i + 1 + (leadNB rest + 1)) a b]
        constructor
        · rintro (heq | ⟨k', rfl, hr⟩)
          · rw [Prod.mk.injEq] at heq
            refine ⟨0, by omega, ?_⟩
            rw [heq.2]
            exact (runAt_zero_iff c rest hcF _).mpr (by omega)
          · -- a run of the dropped suffix is a run of the whole line
            by_cases hL : leadNB rest < rest.length
            · have hdl : leadNB rest + 2 ≤ (c :: rest).length := by
                simp only [List.length_cons]; omega
              have hblack : isBlackChar ((c :: rest).getD (leadNB rest + 2 - 1) ' ') = true := by
                rw [show leadNB rest + 2 - 1 = leadNB rest + 1 from by omega,
                  List.getD_cons_succ]
                rcases leadNB_boundary rest with h | h
                · omega
                · exact h
              have hdrop : (c :: rest).drop (leadNB rest + 2) = rest.drop (leadNB rest + 1) := by
                rw [List.drop_succ_cons]
              have := (runAt_drop (c :: rest) (leadNB rest + 2) (by omega) hdl hblack k' b).mpr
                (by rw [hdrop]; exact hr)
              exact ⟨leadNB rest + 2 + k', by omega, this⟩
            · -- the whole of rest is block-free: the dropped suffix is empty
              have : rest.drop (leadNB rest + 1) = [] := by
                refine List.drop_eq_nil_of_le ?_
                omega
              rw [this] at hr
              rcases hr with ⟨hb, hlen, _⟩
              simp at hlen
              omega
        · rintro ⟨k, rfl, hr⟩
          cases k with
          | zero =>
            left
            have := (runAt_zero_iff c rest hcF b).mp hr
            rw [Prod.mk.injEq]
            exact ⟨by omega, by omega⟩
          | succ kk =>
            right
            have hge := runAt_pos_lower c rest hcF (kk + 1) b (by omega) hr
            by_cases hL : leadNB rest < rest.length
            · have hdl : leadNB rest + 2 ≤ (c :: rest).length := by
                simp only [List.length_cons]; omega
              have hblack : isBlackChar ((c :: rest).getD (leadNB rest + 2 - 1) ' ') = true := by
                rw [show leadNB rest + 2 - 1 = leadNB rest + 1 from by omega,
                  List.getD_cons_succ]
                rcases leadNB_boundary rest with h | h
                · omega
                · exact h
              have hdrop : (c :: rest).drop (leadNB rest + 2) = rest.drop (leadNB rest + 1) := by
                rw [List.drop_succ_cons]
              refine ⟨kk + 1 - (leadNB rest + 2), by omega, ?_⟩
              have := (runAt_drop (c :: rest) (leadNB rest + 2) (by omega) hdl hblack
                (kk + 1 - (leadNB rest + 2)) b).mp
                (by rw [show leadNB rest + 2 + (kk + 1 - (leadNB rest + 2)) = kk + 1 from by omega]
                    exact hr)
              rw [hdrop] at this
              exact this
            · -- impossible: the run would start beyond the line
              rcases hr with ⟨hb, hlen, _⟩
              simp only [List.length_cons] at hlen
              have := leadNB_le rest
              omega

lemma isBlackChar_space : isBlackChar ' ' = false := rfl

/-- `runAt` over a tabulated line, expressed through the tabulating function. -/
lemma runAt_map_range (n : Nat) (f : Nat → Char) (k b : Nat) :
    runAt ((List.range n).map f) k b ↔
      (1 ≤ b ∧ k + b ≤ n ∧
        (∀ j, j < b → isBlackChar (f (k + j)) = false) ∧
        (k = 0 ∨ isBlackChar (f (k - 1)) = true) ∧
        (k + b = n ∨ isBlackChar (f (k + b)) = true)) := by
  have hlen : ((List.range n).map f).length = n := by simp
  constructor
  · rintro ⟨hb, hl, hcells, hleft, hright⟩
    rw [hlen] at hl hright
    refine ⟨hb, hl, ?_, ?_, ?_⟩
    · intro j hj
      have := hcells j hj
      rw [getD_map_range, if_pos (by omega)] at this
      exact this
    · rcases hleft with h | h
      · exact Or.inl h
      · right
        rw [getD_map_range, if_pos (by omega)] at h
        exact h
    · rcases hright with h | h
      · exact Or.inl h
      · by_cases hkb : k + b < n
        · right
          rw [getD_map_range, if_pos hkb] at h
          exact h
        · rw [getD_map_range, if_neg hkb, isBlackChar_space] at h
          cases h
  · rintro ⟨hb, hl, hcells, hleft, hright⟩
    refine ⟨hb, by rw [hlen]; exact hl, ?_, ?_, ?_⟩
    · intro j hj
      rw [getD_map_range, if_pos (by omega)]
      exact hcells j hj
    · rcases hleft with h | h
      · exact Or.inl h
      · right
        rw [getD_map_range, if_pos (by omega)]
        exact h
    · rcases hright with h | h
      · left; rw [hlen]; exact h
      · by_cases hkb : k + b < n
        · right
          rw [getD_map_range, if_pos hkb]
          exact h
        · left; rw [hlen]; omega

/-- C7 membership, across half. -/
lemma mem_pwb_across (g : Crossword) (sr sc len : Nat) :
    (WordBoundary.mk sr sc len Direction.Across ∈ parse_word_boundaries g ↔
      (1 < len ∧ sr < g.height ∧ runAt (rowChars g sr) sc len)) := by
  rw [parse_word_boundaries]
  rw [List.mem_filter]
  simp only [List.mem_append, List.mem_flatten, List.mem_map, List.mem_range]
  constructor
  · rintro ⟨hmem, hlen⟩
    rcases hmem with ⟨l, ⟨r, hr, rfl⟩, hin⟩ | ⟨l, ⟨c, hc, rfl⟩, hin⟩
    · rcases List.mem_map.mp hin with ⟨run, hrun, heq⟩
      cases heq
      refine ⟨by simpa using hlen, hr, ?_⟩
      have := (scanRun_none_mem (rowChars g sr).length _ le_rfl 0 run.1 run.2).mp
        (by rw [Prod.mk.eta]; exact hrun)
      rcases this with ⟨k, hk, hrunAt⟩
      rw [show k = run.1 from by omega] at hrunAt
      exact hrunAt
    · rcases List.mem_map.mp hin with ⟨run, _, heq⟩
      cases heq
  · rintro ⟨hlen, hr, hrunAt⟩
    refine ⟨Or.inl ⟨_, ⟨sr, hr, rfl⟩, ?_⟩, by simpa using hlen⟩
    refine List.mem_map.mpr ⟨(sc, len), ?_, rfl⟩
    refine (scanRun_none_mem (rowChars g sr).length _ le_rfl 0 sc len).mpr ⟨sc, by omega, hrunAt⟩

/-- C7 membership, down half. -/
lemma mem_pwb_down (g : Crossword) (sr sc len : Nat) :
    (WordBoundary.mk sr sc len Direction.Down ∈ parse_word_boundaries g ↔
      (1 < len ∧ sc < g.width ∧ runAt (colChars g sc) sr len)) := by
  rw [parse_word_boundaries]
  rw [List.mem_filter]
  simp only [List.mem_append, List.mem_flatten, List.mem_map, List.mem_range]
  constructor
  · rintro ⟨hmem, hlen⟩
    rcases hmem with ⟨l, ⟨r, hr, rfl⟩, hin⟩ | ⟨l, ⟨c, hc, rfl⟩, hin⟩
    · rcases List.mem_map.mp hin with ⟨run, _, heq⟩
      cases heq
    · rcases List.mem_map.mp hin with ⟨run, hrun, heq⟩
      cases heq
      refine ⟨by simpa using hlen, hc, ?_⟩
      have := (scanRun_none_mem (colChars g sc).length _ le_rfl 0 run.1 run.2).mp
        (by rw [Prod.mk.eta]; exact hrun)
      rcases this with ⟨k, hk, hrunAt⟩
      rw [show k = run.1 from by omega] at hrunAt
      exact hrunAt
  · rintro ⟨hlen, hc, hrunAt⟩
    refine ⟨Or.inr ⟨_, ⟨sc, hc, rfl⟩, ?_⟩, by simpa using hlen⟩
    refine List.mem_map.mpr ⟨(sr, len), ?_, rfl⟩
    refine (scanRun_none_mem (colChars g sc).length _ le_rfl 0 sr len).mpr ⟨sr, by omega, hrunAt⟩

/-- Membership in `parse_word_boundaries`: exactly the slot specification. -/
lemma mem_pwb_iff (g : Crossword) (wb : WordBoundary) :
    (wb ∈ parse_word_boundaries g ↔ isSlotSpec g wb) := by
  cases wb with
  | mk sr sc len dir =>
    cases dir with
    | Across =>
      rw [mem_pwb_across]
      rw [isSlotSpec]
      simp only []
      rw [rowChars]
      rw [runAt_map_range]
      unfold isBlackAt
      constructor
      · rintro ⟨h1, h2, hb, hl, hcells, hleft, hright⟩
        exact ⟨by omega, h2, by omega, hcells, hleft, hright⟩
      · rintro ⟨h1, h2, h3, hcells, hleft, hright⟩
        exact ⟨by omega, h2, by omega, by omega, hcells, hleft, hright⟩
    | Down =>
      rw [mem_pwb_down]
      rw [isSlotSpec]
      simp only []
      rw [colChars]
      rw [runAt_map_range]
      unfold isBlackAt
      constructor
      · rintro ⟨h1, h2, hb, hl, hcells, hleft, hright⟩
        exact ⟨by omega, h2, by omega, hcells, hleft, hright⟩
      · rintro ⟨h1, h2, h3, hcells, hleft, hright⟩
        exact ⟨by omega, h2, by omega, by omega, hcells, hleft, hright⟩

/-- The scanner reads a line only through the block predicate. -/
lemma scanRun_congr : ∀ (l1 l2 : List Char), l1.length = l2.length →
    (∀ j, j < l1.length → isBlackChar (l1.getD j ' ') = isBlackChar (l2.getD j ' ')) →
    ∀ (i : Nat) (st : Option (Nat × Nat)), scanRun l1 i st = scanRun l2 i st := by
  intro l1
  induction l1 with
  | nil =>
    intro l2 hlen _ i st
    have : l2 = [] := List.eq_nil_of_length_eq_zero (by simp at hlen; omega)
    subst this
    rfl
  | cons c1 r1 ih =>
    intro l2 hlen hch i st
    cases l2 with
    | nil => simp at hlen
    | cons c2 r2 =>
      have hc : isBlackChar c1 = isBlackChar c2 := by
        have := hch 0 (by simp)
        simpa using this
      have hrest : ∀ j, j < r1.length →
          isBlackChar (r1.getD j ' ') = isBlackChar (r2.getD j ' ') := by
        intro j hj
        have := hch (j + 1) (by simp; omega)
        simpa using this
      have hlr : r1.length = r2.length := by simpa using hlen
      cases st with
      | none =>
        rw [scanRun_cons_none, scanRun_cons_none, ← hc]
        by_cases hb : isBlackChar c1
        · rw [if_pos hb, if_pos hb]
          exact ih r2 hlr hrest (i + 1) none
        · rw [if_neg hb, if_neg hb]
          exact ih r2 hlr hrest (i + 1) (some (i, 1))
      | some run =>
        cases run with
        | mk s ln =>
          rw [scanRun_cons_some, scanRun_cons_some, ← hc]
          by_cases hb : isBlackChar c1
          · rw [if_pos hb, if_pos hb, ih r2 hlr hrest (i + 1) none]
          · rw [if_neg hb, if_neg hb]
            exact ih r2 hlr hrest (i + 1) (some (s, ln + 1))

/-- The slot list is a function of the dimensions and block positions only. -/
lemma pwb_congr (g g2 : Crossword) (hw : g.width = g2.width) (hh : g.height = g2.height)
    (hblocks : ∀ r, r < g.height → ∀ c, c < g.width → isBlackAt g r c = isBlackAt g2 r c) :
    parse_word_boundaries g = parse_word_boundaries g2 := by
  rw [parse_word_boundaries, parse_word_boundaries]
  have hrow : ∀ r, r < g.height →
      scanRun (rowChars g r) 0 none = scanRun (rowChars g2 r) 0 none := by
    intro r hr
    refine scanRun_congr _ _ (by simp [rowChars, hw]) ?_ 0 none
    intro j hj
    have hjw : j < g.width := by simpa [rowChars] using hj
    rw [rowChars, rowChars, getD_map_range, getD_map_range, if_pos hjw,
      if_pos (by omega)]
    have := hblocks r hr j hjw
    unfold isBlackAt at this
    exact this
  have hcol : ∀ c, c < g.width →
      scanRun (colChars g c) 0 none = scanRun (colChars g2 c) 0 none := by
    intro c hc
    refine scanRun_congr _ _ (by simp [colChars, hh]) ?_ 0 none
    intro j hj
    have hjh : j < g.height := by simpa [colChars] using hj
    rw [colChars, colChars, getD_map_range, getD_map_range, if_pos hjh,
      if_pos (by omega)]
    have := hblocks j hjh c hc
    unfold isBlackAt at this
    exact this
  rw [← hw, ← hh]
  congr 1
  congr 1
  · congr 1
    refine List.map_congr_left ?_
    intro r hr
    rw [hrow r (List.mem_range.mp hr)]
  · congr 1
    refine List.map_congr_left ?_
    intro c hc
    rw [hcol c (List.mem_range.mp hc)]

/-- C7: `parse_word_boundaries` returns exactly the maximal non-block runs of
length ≥ 2 (as start row, start column, length and direction, for both
directions), and its result depends only on the dimensions and the block
positions of the grid. -/
theorem parse_word_boundaries_spec (g : Crossword) :
    (∀ wb, wb ∈ parse_word_boundaries g ↔ isSlotSpec g wb) ∧
    (∀ g2 : Crossword, g.width = g2.width → g.height = g2.height →
      (∀ r, r < g.height → ∀ c, c < g.width → isBlackAt g r c = isBlackAt g2 r c) →
      parse_word_boundaries g = parse_word_boundaries g2) :=
  ⟨mem_pwb_iff g, fun g2 hw hh hblocks => pwb_congr g g2 hw hh hblocks⟩

/-- Witness for C7 on the test grid `XX. / X.. / XXX` (internally spaces):
the down slot (0,0,3) is among its boundaries, and a letter-filled grid with
the same block pattern yields the same boundaries. -/
theorem parse_word_boundaries_spec_witness :
    (WordBoundary.mk 0 0 3 Direction.Down ∈
      parse_word_boundaries ⟨[' ', ' ', '.', ' ', '.', '.', ' ', ' ', ' '], 3, 3⟩) ∧
    parse_word_boundaries ⟨[' ', ' ', '.', ' ', '.', '.', ' ', ' ', ' '], 3, 3⟩ =
      parse_word_boundaries ⟨['A', 'B', '.', 'C', '.', '.', 'D', 'E', 'F'], 3, 3⟩ :=
  ⟨((parse_word_boundaries_spec _).1 _).mpr (by decide),
   (parse_word_boundaries_spec _).2 _ rfl rfl (by decide)⟩

/-! ## Parse / display roundtrip (C4, C6) -/

lemma joinRows_cons_cons (r r2 : List Char) (rest : List (List Char)) :
    joinRows (r :: r2 :: rest) = r ++ '\n' :: joinRows (r2 :: rest) := rfl

lemma splitAux_no_newline : ∀ (r acc : List Char), (∀ c ∈ r, c ≠ '\n') →
    splitAux r acc = [acc.reverse ++ r] := by
  intro r
  induction r with
  | nil => intro acc _; simp [splitAux]
  | cons c rest ih =>
    intro acc hnl
    rw [splitAux, if_neg (hnl c (List.mem_cons_self _ _))]
    rw [ih (c :: acc) (fun d hd => hnl d (List.mem_cons_of_mem _ hd))]
    simp

lemma splitAux_newline_split : ∀ (r t acc : List Char), (∀ c ∈ r, c ≠ '\n') →
    splitAux (r ++ '\n' :: t) acc = (acc.reverse ++ r) :: splitAux t [] := by
  intro r
  induction r with
  | nil =>
    intro t acc _
    simp only [List.nil_append]
    rw [splitAux, if_pos rfl]
    simp
  | cons c rest ih =>
    intro t acc hnl
    rw [List.cons_append, splitAux, if_neg (hnl c (List.mem_cons_self _ _))]
    rw [ih t (c :: acc) (fun d hd => hnl d (List.mem_cons_of_mem _ hd))]
    simp

lemma splitLines_joinRows : ∀ (rows : List (List Char)), rows ≠ [] →
    (∀ row ∈ rows, ∀ c ∈ row, c ≠ '\n') → splitLines (joinRows rows) = rows := by
  intro rows
  induction rows with
  | nil => intro h _; cases h rfl
  | cons r rest ih =>
    intro _ hnl
    cases rest with
    | nil =>
      rw [joinRows, splitLines]
      rw [splitAux_no_newline r [] (hnl r (List.mem_cons_self _ _))]
      simp
    | cons r2 rest2 =>
      rw [joinRows_cons_cons, splitLines]
      rw [splitAux_newline_split r (joinRows (r2 :: rest2)) []
        (hnl r (List.mem_cons_self _ _))]
      simp only [List.reverse_nil, List.nil_append]
      rw [show splitAux (joinRows (r2 :: rest2)) [] = splitLines (joinRows (r2 :: rest2))
        from rfl]
      rw [ih (List.cons_ne_nil _ _) (fun row hrow => hnl row (List.mem_cons_of_mem _ hrow))]

lemma filter_ne_newline_joinRows : ∀ (rows : List (List Char)),
    (∀ row ∈ rows, ∀ c ∈ row, c ≠ '\n') →
    (joinRows rows).filter (fun c => c ≠ '\n') = rows.flatten := by
  intro rows
  induction rows with
  | nil => intro _; rfl
  | cons r rest ih =>
    intro hnl
    cases rest with
    | nil =>
      rw [joinRows]
      simp only [List.flatten_cons, List.flatten_nil, List.append_nil]
      refine List.filter_eq_self.mpr ?_
      intro c hc
      simpa using hnl r (List.mem_cons_self _ _) c hc
    | cons r2 rest2 =>
      rw [joinRows_cons_cons]
      rw [List.filter_append]
      rw [List.filter_cons_of_neg (by simp)]
      rw [List.filter_eq_self.mpr
        (fun c hc => by simpa using hnl r (List.mem_cons_self _ _) c hc)]
      rw [ih (fun row hrow => hnl row (List.mem_cons_of_mem _ hrow))]
      rfl

lemma map_getD_range_eq_take (l : List Char) (w : Nat) (hw : w ≤ l.length) :
    (List.range w).map (fun c => l.getD c ' ') = l.take w := by
  refine List.ext_getElem (by simp; omega) ?_
  intro i h1 h2
  simp only [List.getElem_map, List.getElem_range, List.getElem_take]
  have hi : i < w := by simpa using h1
  rw [List.getD_eq_getElem?_getD, List.getElem?_eq_getElem (by omega)]
  rfl

lemma flatten_tabulate (w : Nat) : ∀ (h : Nat) (l : List Char), l.length = h * w →
    (((List.range h).map (fun r => (List.range w).map (fun c => l.getD (r * w + c) ' '))).flatten
      = l) := by
  intro h
  induction h with
  | zero =>
    intro l hl
    simp only [Nat.zero_mul] at hl
    have : l = [] := List.eq_nil_of_length_eq_zero hl
    subst this
    rfl
  | succ hh ih =>
    intro l hl
    rw [List.range_succ_eq_map]
    rw [List.map_cons, List.flatten_cons]
    have hw : w ≤ l.length := by
      rw [hl]
      have : hh * w + w = (hh + 1) * w := by ring
      omega
    have hrow0 : (List.range w).map (fun c => l.getD (0 * w + c) ' ') = l.take w := by
      rw [show (fun c => l.getD (0 * w + c) ' ') = (fun c => l.getD c ' ') from by
        funext c; rw [Nat.zero_mul, Nat.zero_add]]
      exact map_getD_range_eq_take l w hw
    rw [hrow0]
    have hrest : ((List.range hh).map (· + 1)).map
        (fun r => (List.range w).map (fun c => l.getD (r * w + c) ' ')) =
        (List.range hh).map
          (fun r => (List.range w).map (fun c => (l.drop w).getD (r * w + c) ' ')) := by
      rw [List.map_map]
      refine List.map_congr_left ?_
      intro r _
      show (List.range w).map (fun c => l.getD ((r + 1) * w + c) ' ') = _
      refine List.map_congr_left ?_
      intro c _
      rw [getD_drop]
      congr 1
      ring
    rw [hrest]
    rw [ih (l.drop w) (by simp [hl]; ring_nf; omega)]
    exact List.take_append_drop w l

/-- Displayed rows contain no newline, and no `'X'` when the grid has none. -/
lemma displayRow_chars (g : Crossword) (r : Nat)
    (hx : ∀ c ∈ g.contents, c ≠ '\n') :
    ∀ c ∈ displayRow g r, c ≠ '\n' := by
  intro c hc
  rw [displayRow] at hc
  rcases List.mem_map.mp hc with ⟨j, _, rfl⟩
  by_cases hsp : g.contents.getD (r * g.width + j) ' ' = ' '
  · rw [if_pos hsp]
    intro h
    cases h
  · rw [if_neg hsp]
    by_cases hin : r * g.width + j < g.contents.length
    · refine hx _ ?_
      rw [List.getD_eq_getElem?_getD, List.getElem?_eq_getElem hin]
      exact List.getElem_mem hin
    · rw [List.getD_eq_getElem?_getD, List.getElem?_eq_none (by omega)]
      intro h
      cases h

/-- C4 (amended): for a well-formed grid with positive dimensions whose cells
are neither the letter `'X'` nor a newline, parsing the display text restores
the grid exactly. -/
theorem parse_display_roundtrip (g : Crossword)
    (hw : 0 < g.width) (hh : 0 < g.height)
    (hl : g.contents.length = g.height * g.width)
    (hx : ∀ c ∈ g.contents, c ≠ 'X' ∧ c ≠ '\n') :
    Crossword.parse (Crossword.display g) = some g := by
  have hrows_nl : ∀ row ∈ (List.range g.height).map (displayRow g), ∀ c ∈ row, c ≠ '\n' := by
    intro row hrow
    rcases List.mem_map.mp hrow with ⟨r, _, rfl⟩
    exact displayRow_chars g r (fun c hc => (hx c hc).2)
  have hsplit : splitLines (Crossword.display g) = (List.range g.height).map (displayRow g) := by
    rw [Crossword.display]
    refine splitLines_joinRows _ ?_ hrows_nl
    intro hemp
    rw [List.map_eq_nil_iff] at hemp
    rw [List.range_eq_nil] at hemp
    omega
  have hfilter : ((List.range g.height).map (displayRow g)).filter (fun l => l ≠ []) =
      (List.range g.height).map (displayRow g) := by
    refine List.filter_eq_self.mpr ?_
    intro row hrow
    rcases List.mem_map.mp hrow with ⟨r, _, rfl⟩
    have hne : displayRow g r ≠ [] := by
      rw [displayRow]
      intro hemp
      rw [List.map_eq_nil_iff, List.range_eq_nil] at hemp
      omega
    simpa using hne
  have hclean : clean (Crossword.display g) = g.contents := by
    rw [clean, Crossword.display]
    rw [filter_ne_newline_joinRows _ hrows_nl]
    rw [List.map_flatten]
    have hmap : ((List.range g.height).map (displayRow g)).map
        (List.map (fun c => if c = 'X' then ' ' else c)) =
        (List.range g.height).map
          (fun r => (List.range g.width).map (fun c => g.contents.getD (r * g.width + c) ' ')) := by
      rw [List.map_map]
      refine List.map_congr_left ?_
      intro r hr
      show (displayRow g r).map (fun c => if c = 'X' then ' ' else c) = _
      rw [displayRow, List.map_map]
      refine List.map_congr_left ?_
      intro c hc
      have hcw : c < g.width := List.mem_range.mp hc
      have hrh : r < g.height := List.mem_range.mp hr
      have hin : r * g.width + c < g.contents.length := by
        rw [hl]
        calc r * g.width + c < r * g.width + g.width := by omega
        _ = (r + 1) * g.width := by ring
        _ ≤ g.height * g.width := by
            have : r + 1 ≤ g.height := hrh
            exact Nat.mul_le_mul_right _ this
      show (if (if g.contents.getD (r * g.width + c) ' ' = ' ' then 'X'
          else g.contents.getD (r * g.width + c) ' ') = 'X' then ' '
        else if g.contents.getD (r * g.width + c) ' ' = ' ' then 'X'
          else g.contents.getD (r * g.width + c) ' ') = g.contents.getD (r * g.width + c) ' '
      have hmem : g.contents.getD (r * g.width + c) ' ' ∈ g.contents := by
        rw [List.getD_eq_getElem?_getD, List.getElem?_eq_getElem hin]
        exact List.getElem_mem hin
      by_cases hsp : g.contents.getD (r * g.width + c) ' ' = ' '
      · rw [if_pos hsp, if_pos rfl, hsp]
      · rw [if_neg hsp, if_neg (hx _ hmem).1]
    rw [hmap]
    exact flatten_tabulate g.width g.height g.contents hl
  rw [Crossword.parse]
  rw [hsplit, hfilter]
  have hne_rows : (List.range g.height).map (displayRow g) ≠ [] := by
    intro hemp
    rw [List.map_eq_nil_iff, List.range_eq_nil] at hemp
    omega
  rcases List.exists_cons_of_ne_nil hne_rows with ⟨g0, t, hrows⟩
  rw [hrows]
  have hg0 : g0.length = g.width := by
    have hmem : g0 ∈ (List.range g.height).map (displayRow g) := by
      rw [hrows]
      exact List.mem_cons_self _ _
    rcases List.mem_map.mp hmem with ⟨r, _, rfl⟩
    simp [displayRow]
  have hheight : (g0 :: t).length = g.height := by
    rw [← hrows]
    simp
  have hstruct : (⟨clean (Crossword.display g), g0.length, (g0 :: t).length⟩ : Crossword) = g := by
    rw [hclean, hg0, hheight]
  exact congrArg some hstruct

/-- C4 counterexample: on a grid whose cell is the letter `'X'` (a legal
letter cell), the roundtrip turns the letter into an empty cell: the claim
"parse(display(g)) = g for every grid g" fails. -/
theorem parse_display_roundtrip_counterexample :
    Crossword.parse (Crossword.display ⟨['X'], 1, 1⟩) = some ⟨[' '], 1, 1⟩ ∧
    Crossword.parse (Crossword.display ⟨['X'], 1, 1⟩) ≠ some ⟨['X'], 1, 1⟩ := by
  constructor
  · decide
  · decide

/-- Witness for the amended C4 roundtrip on a concrete mixed grid. -/
theorem parse_display_roundtrip_witness :
    Crossword.parse (Crossword.display ⟨['A', ' ', '.', 'B'], 2, 2⟩) =
      some ⟨['A', ' ', '.', 'B'], 2, 2⟩ :=
  parse_display_roundtrip _ (by decide) (by decide) (by decide) (by decide)

/-- C6 (amended): `Crossword::parse` performs no width validation: it returns
a grid exactly when the input has at least one non-empty line (ragged rows
included; the width is taken from the first non-empty line), and its only
failure (a panic on `grid[0]`, modelled as `none`) happens when every line is
empty. -/
theorem parse_no_width_validation (s : List Char) :
    ((Crossword.parse s).isSome = true ↔ ∃ l ∈ splitLines s, l ≠ []) := by
  rw [Crossword.parse]
  cases hg : (splitLines s).filter (fun l => l ≠ []) with
  | nil =>
    simp only [Option.isSome_none, Bool.false_eq_true, false_iff]
    rintro ⟨l, hl, hne⟩
    have := List.filter_eq_nil_iff.mp hg l hl
    simp only [ne_eq, decide_not, Bool.not_eq_eq_eq_not, Bool.not_true,
      decide_eq_false_iff_not, Decidable.not_not] at this
    exact hne this
  | cons g0 rest =>
    simp only [Option.isSome_some, true_iff]
    have hmem : g0 ∈ (splitLines s).filter (fun l => l ≠ []) := by
      rw [hg]; exact List.mem_cons_self _ _
    rcases List.mem_filter.mp hmem with ⟨hin, hpred⟩
    refine ⟨g0, hin, ?_⟩
    simpa using hpred

/-- C6 counterexample: an input whose rows have unequal widths parses
successfully into a grid (width from the first row) instead of returning an
error. -/
theorem parse_accepts_ragged_input :
    Crossword.parse ['a', 'b', '\n', 'c'] = some ⟨['a', 'b', 'c'], 2, 2⟩ := by
  decide

/-! ## Slot view equality, hashing and traversal (C9) -/

lemma wiCollectF_eq : ∀ (fuel : Nat) (it : WordIteratorM),
    fuel = it.wb.length - it.index →
    wiCollectF fuel it = (List.range fuel).map
      (fun j => it.crossword.contents.getD (posIdx it.wb it.crossword.width (it.index + j)) ' ') := by
  intro fuel
  induction fuel with
  | zero => intro it _; rfl
  | succ f ih =>
    intro it hf
    have hidx : it.index < it.wb.length := by omega
    rw [wiCollectF]
    rw [wiNext, if_neg (by omega)]
    show it.crossword.contents.getD (posIdx it.wb it.crossword.width it.index) ' ' ::
        wiCollectF f { it with index := it.index + 1 } = _
    rw [ih { it with index := it.index + 1 } (by simp; omega)]
    rw [List.range_succ_eq_map]
    rw [List.map_cons, List.map_map]
    simp only [Nat.add_zero]
    congr 1
    refine List.map_congr_left ?_
    intro j _
    show it.crossword.contents.getD (posIdx it.wb it.crossword.width (it.index + 1 + j)) ' ' = _
    congr 2
    omega

/-- Collecting a fresh view yields exactly the slot's characters over the
grid; in particular the traversal is a pure function of the view's value, so
any number of re-traversals (the `clone()`-based uses in `Display`, `Hash`
and `PartialEq`) yield the same character sequence. -/
lemma wiCollect_new (g : Crossword) (wb : WordBoundary) :
    wiCollect (WordIteratorM.new g wb) = viewChars g wb := by
  rw [wiCollect, WordIteratorM.new]
  rw [wiCollectF_eq (wb.length - 0) _ (by simp)]
  rw [viewChars, wbPositions, List.map_map]
  simp only [Nat.sub_zero]
  refine List.map_congr_left ?_
  intro j _
  simp

/-- C9: two fresh slot views are equal exactly when their lengths agree and
their character sequences agree positionwise, regardless of the grids, slots
and directions they read from; equal views feed identical character data to
the hasher (the hash reads characters only); and collecting a view always
yields the slot's character sequence over its grid (traversal is restartable
and deterministic). -/
theorem word_iterator_eq_hash_restart (g1 g2 : Crossword) (wb1 wb2 : WordBoundary)
    (_hb1 : wbInBounds wb1 g1) (_hb2 : wbInBounds wb2 g2) :
    (wiEq (WordIteratorM.new g1 wb1) (WordIteratorM.new g2 wb2) = true ↔
      (wb1.length = wb2.length ∧
        ∀ i, i < wb1.length →
          g1.contents.getD (posIdx wb1 g1.width i) ' ' =
            g2.contents.getD (posIdx wb2 g2.width i) ' ')) ∧
    (wiEq (WordIteratorM.new g1 wb1) (WordIteratorM.new g2 wb2) = true →
      wiHashInput (WordIteratorM.new g1 wb1) = wiHashInput (WordIteratorM.new g2 wb2)) ∧
    wiCollect (WordIteratorM.new g1 wb1) = viewChars g1 wb1 := by
  have hiff : wiEq (WordIteratorM.new g1 wb1) (WordIteratorM.new g2 wb2) = true ↔
      (wb1.length = wb2.length ∧
        ∀ i, i < wb1.length →
          g1.contents.getD (posIdx wb1 g1.width i) ' ' =
            g2.contents.getD (posIdx wb2 g2.width i) ' ') := by
    rw [wiEq]
    by_cases hlen : wb1.length = wb2.length
    · rw [if_neg (by simp [WordIteratorM.new, hlen])]
      rw [wiCollect_new, wiCollect_new]
      rw [viewChars, viewChars, wbPositions, wbPositions, List.map_map, List.map_map]
      rw [← hlen]
      rw [List.zip_map']
      rw [List.all_eq_true]
      constructor
      · intro hall
        refine ⟨rfl, ?_⟩
        intro i hi
        have := hall _ (List.mem_map.mpr ⟨i, List.mem_range.mpr hi, rfl⟩)
        simpa using this
      · rintro ⟨_, hpt⟩
        intro x hx
        rcases List.mem_map.mp hx with ⟨i, hi, rfl⟩
        simpa using hpt i (List.mem_range.mp hi)
    · rw [if_pos (by simp [WordIteratorM.new, hlen])]
      constructor
      · intro h; cases h
      · rintro ⟨h, _⟩; exact absurd h hlen
  refine ⟨hiff, ?_, wiCollect_new g1 wb1⟩
  intro heq
  rcases hiff.mp heq with ⟨hlen, hpt⟩
  rw [wiHashInput, wiHashInput, wiCollect_new, wiCollect_new]
  rw [viewChars, viewChars, wbPositions, wbPositions, List.map_map, List.map_map]
  rw [← hlen]
  refine List.map_congr_left ?_
  intro i hi
  exact hpt i (List.mem_range.mp hi)

/-- Witness for C9 on the grid `ABC / B.. / C..` (internally spaces): the
across view at (0,0) and the down view at (0,0) read different slots of the
same grid yet are equal, and collecting the across view yields its slot
characters. -/
theorem word_iterator_eq_hash_restart_witness :
    (wiEq
      (WordIteratorM.new ⟨['A','B','C','B',' ',' ','C',' ',' '], 3, 3⟩
        ⟨0, 0, 3, Direction.Across⟩)
      (WordIteratorM.new ⟨['A','B','C','B',' ',' ','C',' ',' '], 3, 3⟩
        ⟨0, 0, 3, Direction.Down⟩) = true) ∧
    wiCollect (WordIteratorM.new ⟨['A','B','C','B',' ',' ','C',' ',' '], 3, 3⟩
        ⟨0, 0, 3, Direction.Across⟩) =
      viewChars ⟨['A','B','C','B',' ',' ','C',' ',' '], 3, 3⟩ ⟨0, 0, 3, Direction.Across⟩ := by
  have h := word_iterator_eq_hash_restart
    ⟨['A','B','C','B',' ',' ','C',' ',' '], 3, 3⟩
    ⟨['A','B','C','B',' ',' ','C',' ',' '], 3, 3⟩
    ⟨0, 0, 3, Direction.Across⟩ ⟨0, 0, 3, Direction.Down⟩
    (by decide) (by decide)
  exact ⟨h.1.mpr (by decide), h.2.2⟩

/-! ## Geometry of slots and cell writes (towards C1, C5) -/

lemma getD_mem (l : List Char) (q : Nat) (hq : q < l.length) : l.getD q ' ' ∈ l := by
  rw [List.getD_eq_getElem?_getD, List.getElem?_eq_getElem hq]
  exact List.getElem_mem hq

lemma viewChars_length (g : Crossword) (wb : WordBoundary) :
    (viewChars g wb).length = wb.length := by
  simp [viewChars, wbPositions]

lemma wbCells_eq (wb : WordBoundary) :
    wbCells wb = (List.range wb.length).map (cellIdx wb) := by
  rw [wbCells]
  refine List.map_congr_left ?_
  intro i _
  cases hd : wb.direction <;> simp [cellIdx, hd]

lemma posIdx_eq_cell (wb : WordBoundary) (w i : Nat) :
    posIdx wb w i = (cellIdx wb i).1 * w + (cellIdx wb i).2 := by
  cases hd : wb.direction <;> simp [posIdx, cellIdx, hd] <;> omega

/-- Rows and columns below the bounds are recoverable from the flat index. -/
lemma cell_flat_inj (w r1 c1 r2 c2 : Nat) (h1 : c1 < w) (h2 : c2 < w)
    (he : r1 * w + c1 = r2 * w + c2) : r1 = r2 ∧ c1 = c2 := by
  rcases Nat.le_total r1 r2 with hle | hle
  · rcases Nat.le.dest hle with ⟨d, rfl⟩
    rw [Nat.add_mul] at he
    have hc : c1 = d * w + c2 := by omega
    cases d with
    | zero => constructor <;> omega
    | succ d' =>
      exfalso
      have : w ≤ (d' + 1) * w := Nat.le_mul_of_pos_left w (by omega)
      omega
  · rcases Nat.le.dest hle with ⟨d, rfl⟩
    rw [Nat.add_mul] at he
    have hc : c2 = d * w + c1 := by omega
    cases d with
    | zero => constructor <;> omega
    | succ d' =>
      exfalso
      have : w ≤ (d' + 1) * w := Nat.le_mul_of_pos_left w (by omega)
      omega

/-- The cells of a slot inside a grid have in-range columns and rows. -/
lemma slotSpec_cell_bounds (g : Crossword) (wb : WordBoundary) (hs : isSlotSpec g wb) :
    ∀ i, i < wb.length →
      (cellIdx wb i).1 < g.height ∧ (cellIdx wb i).2 < g.width := by
  intro i hi
  rcases hs with ⟨hlen, hrest⟩
  cases hd : wb.direction with
  | Across =>
    rw [hd] at hrest
    simp only [cellIdx, hd]
    exact ⟨hrest.1, by omega⟩
  | Down =>
    rw [hd] at hrest
    simp only [cellIdx, hd]
    exact ⟨by omega, hrest.1⟩

/-- Flat slot positions stay inside well-formed contents. -/
lemma slotSpec_pos_lt (g : Crossword) (wb : WordBoundary) (hs : isSlotSpec g wb)
    (hl : g.contents.length = g.height * g.width) :
    ∀ i, i < wb.length → posIdx wb g.width i < g.contents.length := by
  intro i hi
  rcases slotSpec_cell_bounds g wb hs i hi with ⟨hr, hc⟩
  rw [posIdx_eq_cell, hl]
  calc (cellIdx wb i).1 * g.width + (cellIdx wb i).2
      < (cellIdx wb i).1 * g.width + g.width := by omega
    _ = ((cellIdx wb i).1 + 1) * g.width := by ring
    _ ≤ g.height * g.width := Nat.mul_le_mul_right _ (by omega)

lemma wbPositions_nodup (g : Crossword) (wb : WordBoundary) (hs : isSlotSpec g wb) :
    (wbPositions wb g.width).Nodup := by
  rw [wbPositions]
  refine List.Nodup.map_on ?_ (List.nodup_range _)
  intro i hi j hj he
  have hib := slotSpec_cell_bounds g wb hs i (List.mem_range.mp hi)
  have hjb := slotSpec_cell_bounds g wb hs j (List.mem_range.mp hj)
  rw [posIdx_eq_cell, posIdx_eq_cell] at he
  have := cell_flat_inj g.width _ _ _ _ hib.2 hjb.2 he
  cases hd : wb.direction <;> simp only [cellIdx, hd] at this <;> omega

/-- Slots that share no cell occupy disjoint flat positions. -/
lemma positions_disjoint (g : Crossword) (wb1 wb2 : WordBoundary)
    (h1 : isSlotSpec g wb1) (h2 : isSlotSpec g wb2)
    (hnc : ∀ cell ∈ wbCells wb1, cell ∉ wbCells wb2) :
    ∀ p ∈ wbPositions wb1 g.width, p ∉ wbPositions wb2 g.width := by
  intro p hp1 hp2
  rw [wbPositions] at hp1 hp2
  rcases List.mem_map.mp hp1 with ⟨i, hi, rfl⟩
  rcases List.mem_map.mp hp2 with ⟨j, hj, hej⟩
  have hib := slotSpec_cell_bounds g wb1 h1 i (List.mem_range.mp hi)
  have hjb := slotSpec_cell_bounds g wb2 h2 j (List.mem_range.mp hj)
  rw [posIdx_eq_cell, posIdx_eq_cell] at hej
  have hcells := cell_flat_inj g.width _ _ _ _ hjb.2 hib.2 hej
  refine hnc (cellIdx wb1 i) ?_ ?_
  · rw [wbCells_eq]
    exact List.mem_map.mpr ⟨i, hi, rfl⟩
  · rw [wbCells_eq]
    refine List.mem_map.mpr ⟨j, hj, ?_⟩
    have : cellIdx wb2 j = cellIdx wb1 i := by
      cases hcj : cellIdx wb2 j with
      | mk a b =>
        cases hci : cellIdx wb1 i with
        | mk a' b' =>
          rw [hcj, hci] at hcells
          simp only [] at hcells
          simp [hcells.1, hcells.2]
    exact this

lemma fill_one_word_contents (g : Crossword) (wb : WordBoundary) (w : List Char) :
    (fill_one_word g wb w).contents = writeAll g.contents (wbPositions wb g.width) w := rfl

lemma fill_one_word_width (g : Crossword) (wb : WordBoundary) (w : List Char) :
    (fill_one_word g wb w).width = g.width := rfl

lemma fill_one_word_height (g : Crossword) (wb : WordBoundary) (w : List Char) :
    (fill_one_word g wb w).height = g.height := rfl

lemma writeAll_length : ∀ (ps : List Nat) (w l : List Char),
    (writeAll l ps w).length = l.length := by
  intro ps
  induction ps with
  | nil => intro w l; rfl
  | cons p ps' ih =>
    intro w l
    cases w with
    | nil => rfl
    | cons a w' =>
      rw [writeAll, List.zip_cons_cons, List.foldl_cons]
      rw [show ((ps'.zip w').foldl (fun l2 pc => l2.set pc.1 pc.2) (l.set p a)) =
        writeAll (l.set p a) ps' w' from rfl]
      rw [ih w' (l.set p a)]
      exact List.length_set l p a

lemma writeAll_getD_not_mem : ∀ (ps : List Nat) (w l : List Char) (q : Nat),
    q ∉ ps → (writeAll l ps w).getD q ' ' = l.getD q ' ' := by
  intro ps
  induction ps with
  | nil => intro w l q _; rfl
  | cons p ps' ih =>
    intro w l q hq
    cases w with
    | nil => rfl
    | cons a w' =>
      rw [writeAll, List.zip_cons_cons, List.foldl_cons]
      rw [show ((ps'.zip w').foldl (fun l2 pc => l2.set pc.1 pc.2) (l.set p a)) =
        writeAll (l.set p a) ps' w' from rfl]
      rw [ih w' (l.set p a) q (fun h => hq (List.mem_cons_of_mem _ h))]
      rw [List.getD_eq_getElem?_getD, List.getD_eq_getElem?_getD]
      rw [List.getElem?_set_ne (fun h => hq (by rw [h]; exact List.mem_cons_self _ _))]

/-- Reading the written positions back gives the written word. -/
lemma writeAll_readback : ∀ (ps : List Nat) (w l : List Char),
    ps.Nodup → ps.length = w.length → (∀ p ∈ ps, p < l.length) →
    ps.map (fun p => (writeAll l ps w).getD p ' ') = w := by
  intro ps
  induction ps with
  | nil =>
    intro w l _ hlen _
    cases w with
    | nil => rfl
    | cons a w' => simp at hlen
  | cons p ps' ih =>
    intro w l hnd hlen hin
    cases w with
    | nil => simp at hlen
    | cons a w' =>
      rw [writeAll, List.zip_cons_cons, List.foldl_cons]
      rw [show ((ps'.zip w').foldl (fun l2 pc => l2.set pc.1 pc.2) (l.set p a)) =
        writeAll (l.set p a) ps' w' from rfl]
      rw [List.map_cons]
      have hpn : p ∉ ps' := (List.nodup_cons.mp hnd).1
      congr 1
      · rw [writeAll_getD_not_mem ps' w' (l.set p a) p hpn]
        rw [List.getD_eq_getElem?_getD]
        rw [List.getElem?_set_self (by have := hin p (List.mem_cons_self _ _); omega)]
        rfl
      · exact ih w' (l.set p a) (List.nodup_cons.mp hnd).2 (by simpa using hlen)
          (fun q hq => by rw [List.length_set]; exact hin q (List.mem_cons_of_mem _ hq))

/-- Reading the freshly filled slot gives back the word that was written. -/
lemma viewChars_fill_self (g : Crossword) (wb : WordBoundary) (w : List Char)
    (hs : isSlotSpec g wb) (hl : g.contents.length = g.height * g.width)
    (hlen : w.length = wb.length) :
    viewChars (fill_one_word g wb w) wb = w := by
  rw [viewChars, fill_one_word_contents, fill_one_word_width]
  refine writeAll_readback (wbPositions wb g.width) w g.contents
    (wbPositions_nodup g wb hs) (by simp [wbPositions, hlen]) ?_
  intro p hp
  rcases List.mem_map.mp hp with ⟨i, hi, rfl⟩
  exact slotSpec_pos_lt g wb hs hl i (List.mem_range.mp hi)

/-- Reading a slot that shares no cell with the filled one is unchanged. -/
lemma viewChars_fill_other (g : Crossword) (s t : WordBoundary) (w : List Char)
    (hss : isSlotSpec g s) (hts : isSlotSpec g t)
    (hnc : ∀ cell ∈ wbCells t, cell ∉ wbCells s) :
    viewChars (fill_one_word g s w) t = viewChars g t := by
  rw [viewChars, viewChars, fill_one_word_contents, fill_one_word_width]
  refine List.map_congr_left ?_
  intro p hp
  exact writeAll_getD_not_mem _ w g.contents p
    (positions_disjoint g t s hts hss hnc p hp)

/-- Every cell of the filled grid is the old cell, or a replacement of an
empty old cell by a character of the written word. -/
lemma fill_one_word_cell_cases (g : Crossword) (wb : WordBoundary) (w : List Char)
    (hs : isSlotSpec g wb) (hl : g.contents.length = g.height * g.width)
    (hagree : List.Forall₂ agreeChar w (viewChars g wb)) :
    ∀ q, (fill_one_word g wb w).contents.getD q ' ' = g.contents.getD q ' ' ∨
      (g.contents.getD q ' ' = ' ' ∧ (fill_one_word g wb w).contents.getD q ' ' ∈ w) := by
  intro q
  rw [fill_one_word_contents]
  by_cases hq : q ∈ wbPositions wb g.width
  · rcases List.mem_map.mp hq with ⟨i, hi, rfl⟩
    have hiw : i < wb.length := List.mem_range.mp hi
    have hwlen : w.length = wb.length := by
      have := List.Forall₂.length_eq hagree
      rw [viewChars_length] at this
      exact this
    have hread := writeAll_readback (wbPositions wb g.width) w g.contents
      (wbPositions_nodup g wb hs) (by simp [wbPositions, hwlen]) ?hin
    case hin =>
      intro p hp
      rcases List.mem_map.mp hp with ⟨j, hj, rfl⟩
      exact slotSpec_pos_lt g wb hs hl j (List.mem_range.mp hj)
    -- pointwise: the value written at position i is w[i]
    have hpt : (writeAll g.contents (wbPositions wb g.width) w).getD
        (posIdx wb g.width i) ' ' = w.getD i ' ' := by
      have hmapped := congrArg (fun l => l.getD i ' ') hread
      simp only [] at hmapped
      rw [← hmapped]
      rw [wbPositions]
      rw [List.map_map]
      rw [getD_map_range _ _ i ' ', if_pos hiw]
      rfl
    have hview : (viewChars g wb).getD i ' ' = g.contents.getD (posIdx wb g.width i) ' ' := by
      rw [viewChars, wbPositions, List.map_map]
      rw [getD_map_range _ _ i ' ', if_pos hiw]
      rfl
    have hag := (forall₂_agreeChar_iff w (viewChars g wb)).mp hagree
    rcases hag with ⟨_, hptw⟩
    by_cases hsp : (viewChars g wb).getD i ' ' = ' '
    · right
      refine ⟨by rw [← hview]; exact hsp, ?_⟩
      rw [hpt]
      refine getD_mem w i (by omega)
    · left
      have := hptw i (by rw [viewChars_length]; omega) (by
        rw [List.getD_eq_getElem?_getD] at hsp ⊢
        exact hsp)
      rw [hpt, ← hview]
      rw [List.getD_eq_getElem?_getD] at this ⊢
      exact this
  · left
    exact writeAll_getD_not_mem _ w g.contents q hq

/-- A word list without spaces forces agreement to be equality. -/
lemma forall₂_agree_no_space : ∀ (s p : List Char), (∀ c ∈ p, c ≠ ' ') →
    List.Forall₂ agreeChar s p → s = p := by
  intro s
  induction s with
  | nil =>
    intro p _ hf
    cases hf
    rfl
  | cons a s' ih =>
    intro p hp hf
    cases p with
    | nil => cases hf
    | cons b p' =>
      rcases List.forall₂_cons.mp hf with ⟨hab, hf'⟩
      have hb : a = b := by
        rcases hab with h | h
        · exact absurd h (hp b (List.mem_cons_self _ _))
        · exact h
      rw [hb, ih p' (fun c hc => hp c (List.mem_cons_of_mem _ hc)) hf']

/-- On a complete (space-free) pattern, viability of the built dictionary is
exactly membership of the pattern in the word list. -/
lemma build_is_viable_complete (ws : List (List Char)) (p : List Char)
    (hp : ∀ c ∈ p, c ≠ ' ') :
    ((Trie.build ws).is_viable p = true ↔ p ∈ ws) := by
  rw [build_is_viable_iff]
  constructor
  · rintro ⟨s, hmem, hf⟩
    rw [← forall₂_agree_no_space s p hp hf]
    exact hmem
  · intro hmem
    refine ⟨p, hmem, ?_⟩
    clear hmem
    induction p with
    | nil => exact List.Forall₂.nil
    | cons c p' ih =>
      exact List.forall₂_cons.mpr ⟨Or.inr rfl,
        ih (fun d hd => hp d (List.mem_cons_of_mem _ hd))⟩

lemma minByKeyAux_mem (key : WordBoundary → Nat × Nat × Nat) :
    ∀ (l : List WordBoundary) (best : WordBoundary),
      minByKeyAux key best l = best ∨ minByKeyAux key best l ∈ l := by
  intro l
  induction l with
  | nil => intro best; left; rfl
  | cons y ys ih =>
    intro best
    rw [minByKeyAux]
    by_cases hk : (key y).1 < (key best).1 ∨
        ((key y).1 = (key best).1 ∧ ((key y).2.1 < (key best).2.1 ∨
          ((key y).2.1 = (key best).2.1 ∧ (key y).2.2 < (key best).2.2)))
    · rw [if_pos hk]
      rcases ih y with h | h
      · right; rw [h]; exact List.mem_cons_self _ _
      · right; exact List.mem_cons_of_mem _ h
    · rw [if_neg hk]
      rcases ih best with h | h
      · left; exact h
      · right; exact List.mem_cons_of_mem _ h

lemma minByKey_mem (key : WordBoundary → Nat × Nat × Nat) (l : List WordBoundary)
    (x : WordBoundary) (h : minByKey key l = some x) : x ∈ l := by
  cases l with
  | nil => cases h
  | cons y ys =>
    rw [minByKey] at h
    cases h
    rcases minByKeyAux_mem key ys y with h | h
    · rw [h]; exact List.mem_cons_self _ _
    · exact List.mem_cons_of_mem _ h

/-- A passing viability pass means every given slot's view is viable. -/
lemma is_viable_reuse_true : ∀ (orthos : List WordBoundary) (cand : Crossword)
    (trie : Trie) (used : List (List Char)),
    (is_viable_reuse cand orthos trie used).1 = true →
    ∀ wb ∈ orthos, trie.is_viable (viewChars cand wb) = true := by
  intro orthos
  induction orthos with
  | nil => intro cand trie used _ wb hwb; cases hwb
  | cons o rest ih =>
    intro cand trie used h wb hwb
    rw [is_viable_reuse] at h
    by_cases hsp : (viewChars cand o).any (fun c => c = ' ') = true
    · rw [if_pos hsp] at h
      by_cases hv : trie.is_viable (viewChars cand o) = true
      · rw [if_pos hv] at h
        rcases List.mem_cons.mp hwb with rfl | hwb'
        · exact hv
        · exact ih cand trie used h wb hwb'
      · rw [if_neg hv] at h
        cases h
    · rw [if_neg hsp] at h
      by_cases hdup : viewChars cand o ∈ used
      · rw [if_pos hdup] at h
        cases h
      · rw [if_neg hdup] at h
        by_cases hv : trie.is_viable (viewChars cand o) = true
        · rw [if_pos hv] at h
          rcases List.mem_cons.mp hwb with rfl | hwb'
          · exact hv
          · exact ih cand trie _ h wb hwb'
        · rw [if_neg hv] at h
          cases h

/-! ## The search invariant (towards C1) -/

lemma goodGrid_init (ws : List (List Char)) (init : Crossword)
    (H3 : ∀ wb ∈ parse_word_boundaries init,
      (∀ c ∈ viewChars init wb, c ≠ ' ') → viewChars init wb ∈ ws) :
    GoodGrid ws init init :=
  ⟨rfl, rfl, rfl, fun _ => Or.inl rfl, H3⟩

/-- Under block-free word lists, a good grid keeps the initial block
pattern at every flat position. -/
lemma goodGrid_black_eq (ws : List (List Char)) (init C : Crossword)
    (H1 : ∀ x ∈ ws, ∀ c ∈ x, isBlackChar c = false)
    (hC : GoodGrid ws init C) :
    ∀ q, isBlackChar (C.contents.getD q ' ') = isBlackChar (init.contents.getD q ' ') := by
  intro q
  rcases hC.2.2.2.1 q with h | ⟨hsp, x, hx, hin⟩
  · rw [h]
  · rw [hsp, H1 x hx _ hin, isBlackChar_space]

/-- A slot of the initial grid is a slot of any good grid. -/
lemma goodGrid_slotSpec (ws : List (List Char)) (init C : Crossword)
    (H1 : ∀ x ∈ ws, ∀ c ∈ x, isBlackChar c = false)
    (hC : GoodGrid ws init C) (wb : WordBoundary) (hs : isSlotSpec init wb) :
    isSlotSpec C wb := by
  rcases hC with ⟨hwd, hht, hln, hchars, hslots⟩
  have hblack : ∀ r c, isBlackAt C r c = isBlackAt init r c := by
    intro r c
    unfold isBlackAt
    rw [hwd]
    exact goodGrid_black_eq ws init C H1 ⟨hwd, hht, hln, hchars, hslots⟩ _
  rcases hs with ⟨hlen, hrest⟩
  refine ⟨hlen, ?_⟩
  cases hd : wb.direction with
  | Across =>
    rw [hd] at hrest
    simp only []
    rw [hwd, hht]
    refine ⟨hrest.1, hrest.2.1, ?_, ?_, ?_⟩
    · intro j hj
      rw [hblack]
      exact hrest.2.2.1 j hj
    · rcases hrest.2.2.2.1 with h | h
      · exact Or.inl h
      · right; rw [hblack]; exact h
    · rcases hrest.2.2.2.2 with h | h
      · exact Or.inl h
      · right; rw [hblack]; exact h
  | Down =>
    rw [hd] at hrest
    simp only []
    rw [hwd, hht]
    refine ⟨hrest.1, hrest.2.1, ?_, ?_, ?_⟩
    · intro j hj
      rw [hblack]
      exact hrest.2.2.1 j hj
    · rcases hrest.2.2.2.1 with h | h
      · exact Or.inl h
      · right; rw [hblack]; exact h
    · rcases hrest.2.2.2.2 with h | h
      · exact Or.inl h
      · right; rw [hblack]; exact h

lemma goodGrid_contents_wf (ws : List (List Char)) (init C : Crossword)
    (H2 : init.contents.length = init.height * init.width)
    (hC : GoodGrid ws init C) :
    C.contents.length = C.height * C.width := by
  rcases hC with ⟨hwd, hht, hln, _, _⟩
  rw [hln, hwd, hht, H2]

/-- One filling step preserves the invariant, provided the word came from the
dictionary query on the slot's view and all orthogonal slots of the new grid
remain viable. -/
lemma goodGrid_fill (ws : List (List Char)) (init : Crossword)
    (H1 : ∀ x ∈ ws, ∀ c ∈ x, isBlackChar c = false)
    (H2 : init.contents.length = init.height * init.width)
    (C : Crossword) (S : WordBoundary) (w : List Char)
    (hC : GoodGrid ws init C)
    (hS : S ∈ parse_word_boundaries init)
    (hw : w ∈ (Trie.build ws).words (viewChars C S))
    (hviable : ∀ wb ∈ words_orthogonal_to_word S (parse_word_boundaries init),
      (Trie.build ws).is_viable (viewChars (fill_one_word C S w) wb) = true) :
    GoodGrid ws init (fill_one_word C S w) := by
  have hSinit : isSlotSpec init S := (mem_pwb_iff init S).mp hS
  have hSC : isSlotSpec C S := goodGrid_slotSpec ws init C H1 hC S hSinit
  have hClen : C.contents.length = C.height * C.width :=
    goodGrid_contents_wf ws init C H2 hC
  rcases build_words_mem ws (viewChars C S) w |>.mp hw with ⟨hwmem, hwagree⟩
  have hwlen : w.length = S.length := by
    have := List.Forall₂.length_eq hwagree
    rw [viewChars_length] at this
    exact this
  rcases hC with ⟨hwd, hht, hln, hchars, hslots⟩
  have hCfull : GoodGrid ws init C := ⟨hwd, hht, hln, hchars, hslots⟩
  refine ⟨?_, ?_, ?_, ?_, ?_⟩
  · rw [fill_one_word_width]; exact hwd
  · rw [fill_one_word_height]; exact hht
  · rw [fill_one_word_contents, writeAll_length]; exact hln
  · intro q
    rcases fill_one_word_cell_cases C S w hSC hClen hwagree q with h | ⟨hsp, hin⟩
    · rcases hchars q with h2 | ⟨h2, x, hx, hxin⟩
      · left; rw [h, h2]
      · right; exact ⟨h2, x, hx, by rw [← h] at hxin; exact hxin⟩
    · right
      refine ⟨?_, w, hwmem, hin⟩
      rcases hchars q with h2 | ⟨h2, _⟩
      · rw [← h2]; exact hsp
      · exact h2
  · intro wb hwb hcomplete
    have hwbinit : isSlotSpec init wb := (mem_pwb_iff init wb).mp hwb
    have hwbC : isSlotSpec C wb := goodGrid_slotSpec ws init C H1 hCfull wb hwbinit
    by_cases hwbS : wb = S
    · subst hwbS
      rw [viewChars_fill_self C wb w hSC hClen hwlen] at hcomplete ⊢
      exact hwmem
    · by_cases hshare : (wbCells wb).any (fun cell => cell ∈ wbCells S) = true
      · have hortho : wb ∈ words_orthogonal_to_word S (parse_word_boundaries init) := by
          rw [words_orthogonal_to_word]
          refine List.mem_filter.mpr ⟨hwb, ?_⟩
          rw [Bool.and_eq_true]
          exact ⟨by simp [hwbS], by simpa using hshare⟩
        have hv := hviable wb hortho
        exact (build_is_viable_complete ws _ hcomplete).mp hv
      · have hnc : ∀ cell ∈ wbCells wb, cell ∉ wbCells S := by
          intro cell hcell hcellS
          rw [List.any_eq_true] at hshare
          exact hshare ⟨cell, hcell, by simpa using hcellS⟩
        rw [viewChars_fill_other C S wb w hSC hwbC hnc] at hcomplete ⊢
        exact hslots wb hwb hcomplete

/-- A successful inner loop returns a good, complete grid. -/
lemma innerLoop_inr_sound (ws : List (List Char)) (init : Crossword)
    (H1 : ∀ x ∈ ws, ∀ c ∈ x, isBlackChar c = false)
    (H2 : init.contents.length = init.height * init.width)
    (C : Crossword) (toFill : WordBoundary)
    (hC : GoodGrid ws init C) (htf : toFill ∈ parse_word_boundaries init) :
    ∀ (fills used : List (List Char)) (stack : List Crossword) (done : Crossword),
      (∀ w ∈ fills, w ∈ (Trie.build ws).words (viewChars C toFill)) →
      innerLoop (Trie.build ws) C toFill
        (words_orthogonal_to_word toFill (parse_word_boundaries init)) fills used stack
        = Sum.inr done →
      GoodGrid ws init done ∧ done.contents.any (fun c => c = ' ') = false := by
  intro fills
  induction fills with
  | nil =>
    intro used stack done _ h
    rw [innerLoop] at h
    exact Sum.noConfusion h
  | cons w fills ih =>
    intro used stack done hfills h
    rw [innerLoop] at h
    by_cases hv : (is_viable_reuse (fill_one_word C toFill w)
        (words_orthogonal_to_word toFill (parse_word_boundaries init))
        (Trie.build ws) used).1 = true
    · rw [if_pos hv] at h
      by_cases hsp : (fill_one_word C toFill w).contents.any (fun c => c = ' ') = true
      · rw [if_pos hsp] at h
        exact ih [] _ done (fun w' hw' => hfills w' (List.mem_cons_of_mem _ hw')) h
      · rw [if_neg hsp] at h
        cases h
        refine ⟨goodGrid_fill ws init H1 H2 C toFill w hC htf
          (hfills w (List.mem_cons_self _ _)) ?_, Bool.eq_false_iff.mpr hsp⟩
        exact is_viable_reuse_true _ _ _ _ hv
    · rw [if_neg hv] at h
      exact ih [] stack done (fun w' hw' => hfills w' (List.mem_cons_of_mem _ hw')) h

/-- An exhausted inner loop leaves only good grids on the stack. -/
lemma innerLoop_inl_sound (ws : List (List Char)) (init : Crossword)
    (H1 : ∀ x ∈ ws, ∀ c ∈ x, isBlackChar c = false)
    (H2 : init.contents.length = init.height * init.width)
    (C : Crossword) (toFill : WordBoundary)
    (hC : GoodGrid ws init C) (htf : toFill ∈ parse_word_boundaries init) :
    ∀ (fills used : List (List Char)) (stack : List Crossword)
      (us : List (List Char) × List Crossword),
      (∀ w ∈ fills, w ∈ (Trie.build ws).words (viewChars C toFill)) →
      (∀ X ∈ stack, GoodGrid ws init X) →
      innerLoop (Trie.build ws) C toFill
        (words_orthogonal_to_word toFill (parse_word_boundaries init)) fills used stack
        = Sum.inl us →
      ∀ X ∈ us.2, GoodGrid ws init X := by
  intro fills
  induction fills with
  | nil =>
    intro used stack us _ hstack h
    rw [innerLoop] at h
    cases h
    exact hstack
  | cons w fills ih =>
    intro used stack us hfills hstack h
    rw [innerLoop] at h
    by_cases hv : (is_viable_reuse (fill_one_word C toFill w)
        (words_orthogonal_to_word toFill (parse_word_boundaries init))
        (Trie.build ws) used).1 = true
    · rw [if_pos hv] at h
      by_cases hsp : (fill_one_word C toFill w).contents.any (fun c => c = ' ') = true
      · rw [if_pos hsp] at h
        refine ih [] _ us (fun w' hw' => hfills w' (List.mem_cons_of_mem _ hw')) ?_ h
        intro X hX
        rcases List.mem_cons.mp hX with rfl | hX'
        · refine goodGrid_fill ws init H1 H2 C toFill w hC htf
            (hfills w (List.mem_cons_self _ _)) ?_
          exact is_viable_reuse_true _ _ _ _ hv
        · exact hstack X hX'
      · rw [if_neg hsp] at h
        exact Sum.noConfusion h
    · rw [if_neg hv] at h
      exact ih [] stack us (fun w' hw' => hfills w' (List.mem_cons_of_mem _ hw')) hstack h

/-- Every grid the search loop returns successfully is good and complete. -/
lemma fillLoop_sound (ws : List (List Char)) (init : Crossword)
    (H1 : ∀ x ∈ ws, ∀ c ∈ x, isBlackChar c = false)
    (H2 : init.contents.length = init.height * init.width)
    (timeUp : Nat → Bool) :
    ∀ (fuel cnt : Nat) (used : List (List Char)) (stack : List Crossword),
      (∀ C ∈ stack, GoodGrid ws init C) →
      ∀ g', fillLoop (Trie.build ws) (parse_word_boundaries init) timeUp fuel cnt used stack
          = some (Except.ok g') →
        GoodGrid ws init g' ∧ g'.contents.any (fun c => c = ' ') = false := by
  intro fuel
  induction fuel with
  | zero =>
    intro cnt used stack _ g' h
    cases h
  | succ fuel ih =>
    intro cnt used stack hstack g' h
    cases stack with
    | nil =>
      rw [fillLoop] at h
      simp at h
    | cons cand rest =>
      simp only [fillLoop] at h
      by_cases ht : timeUp (cnt + 1) = true
      · rw [if_pos ht] at h
        simp at h
      · rw [if_neg ht] at h
        split at h
        · simp at h
        · rename_i toFill hmin
          have htf : toFill ∈ parse_word_boundaries init := by
            have := minByKey_mem _ _ _ hmin
            exact (List.mem_filter.mp this).1
          have hC : GoodGrid ws init cand := hstack cand (List.mem_cons_self _ _)
          split at h
          · rename_i done hinner
            have hdg : done = g' := by
              have h' : some (Except.ok done) = some (Except.ok g') := h
              injection h' with h2
              injection h2
            subst hdg
            exact innerLoop_inr_sound ws init H1 H2 cand toFill hC htf _ used rest done
              (fun w hw => hw) hinner
          · rename_i us hinner
            refine ih (cnt + 1) us.1 us.2 ?_ g' h
            exact innerLoop_inl_sound ws init H1 H2 cand toFill hC htf _ used rest us
              (fun w hw => hw) (fun X hX => hstack X (List.mem_cons_of_mem _ hX)) hinner

/-- C1 (amended): for a dictionary whose words contain no block characters
and an initial grid whose already-complete slots all spell dictionary words,
every grid `fill` returns successfully has the initial dimensions and block
pattern, contains no empty cell, preserves every non-empty initial cell
(letters and blocks), and spells a dictionary word in every slot of length
at least 2. -/
theorem fill_success_properties (ws : List (List Char)) (init g' : Crossword)
    (timeUp : Nat → Bool) (fuel : Nat)
    (H1 : ∀ x ∈ ws, ∀ c ∈ x, isBlackChar c = false)
    (H2 : init.contents.length = init.height * init.width)
    (H3 : ∀ wb ∈ parse_word_boundaries init,
      (∀ c ∈ viewChars init wb, c ≠ ' ') → viewChars init wb ∈ ws)
    (hrun : fillRun (Trie.build ws) init timeUp fuel = some (Except.ok g')) :
    g'.width = init.width ∧ g'.height = init.height ∧
    (∀ r c, isBlackAt g' r c = isBlackAt init r c) ∧
    ' ' ∉ g'.contents ∧
    (∀ q, init.contents.getD q ' ' ≠ ' ' →
      g'.contents.getD q ' ' = init.contents.getD q ' ') ∧
    (∀ wb ∈ parse_word_boundaries g', viewChars g' wb ∈ ws) := by
  have hstack0 : ∀ C ∈ [init], GoodGrid ws init C := by
    intro C hC
    have hC' : C = init := by simpa using hC
    rw [hC']
    exact goodGrid_init ws init H3
  rcases fillLoop_sound ws init H1 H2 timeUp fuel 0 [] [init] hstack0 g' hrun with ⟨hG, hsp⟩
  rcases hG with ⟨hwd, hht, hln, hchars, hslots⟩
  have hGfull : GoodGrid ws init g' := ⟨hwd, hht, hln, hchars, hslots⟩
  have hblack : ∀ q, isBlackChar (g'.contents.getD q ' ') =
      isBlackChar (init.contents.getD q ' ') :=
    goodGrid_black_eq ws init g' H1 hGfull
  have hnospace : ' ' ∉ g'.contents := by
    intro hmem
    have hany : g'.contents.any (fun c => c = ' ') = true :=
      List.any_eq_true.mpr ⟨' ', hmem, by simp⟩
    rw [hsp] at hany
    cases hany
  refine ⟨hwd, hht, ?_, hnospace, ?_, ?_⟩
  · intro r c
    unfold isBlackAt
    rw [hwd]
    exact hblack _
  · intro q hq
    rcases hchars q with h | ⟨h, _⟩
    · exact h
    · exact absurd h hq
  · have hpwb : parse_word_boundaries g' = parse_word_boundaries init := by
      refine pwb_congr g' init hwd hht ?_
      intro r _ c _
      unfold isBlackAt
      rw [hwd]
      exact hblack _
    intro wb hwb
    have hwbg' : isSlotSpec g' wb := (mem_pwb_iff g' wb).mp hwb
    have hg'len : g'.contents.length = g'.height * g'.width := by
      rw [hln, hwd, hht, H2]
    have hcomplete : ∀ c ∈ viewChars g' wb, c ≠ ' ' := by
      intro c hc
      rw [viewChars] at hc
      rcases List.mem_map.mp hc with ⟨p, hp, rfl⟩
      rw [wbPositions] at hp
      rcases List.mem_map.mp hp with ⟨i, hi, rfl⟩
      have hlt := slotSpec_pos_lt g' wb hwbg' hg'len i (List.mem_range.mp hi)
      intro hcsp
      exact hnospace (hcsp ▸ getD_mem _ _ hlt)
    rw [hpwb] at hwb
    exact hslots wb hwb hcomplete

/-- C1 counterexample: the claim as stated fails on the code in two ways.
With dictionary {CD} and initial grid `AB.␣␣` (AB pre-filled and complete,
AB not in the dictionary), `fill` succeeds with `AB.CD`, whose across slot at
(0,0) spells AB ∉ D — so a successful fill does not make every slot a
dictionary word.  With dictionary {..} and the all-empty 1×2 grid, `fill`
succeeds with `..`, changing the block pattern. -/
theorem fill_success_counterexample :
    (fillRun (Trie.build [['C', 'D']]) ⟨['A', 'B', '.', ' ', ' '], 5, 1⟩
        (fun _ => false) 5 = some (Except.ok ⟨['A', 'B', '.', 'C', 'D'], 5, 1⟩) ∧
      WordBoundary.mk 0 0 2 Direction.Across ∈
        parse_word_boundaries ⟨['A', 'B', '.', 'C', 'D'], 5, 1⟩ ∧
      viewChars ⟨['A', 'B', '.', 'C', 'D'], 5, 1⟩ ⟨0, 0, 2, Direction.Across⟩ ∉
        [['C', 'D']]) ∧
    (fillRun (Trie.build [['.', '.']]) ⟨[' ', ' '], 2, 1⟩ (fun _ => false) 5 =
        some (Except.ok ⟨['.', '.'], 2, 1⟩) ∧
      isBlackAt ⟨['.', '.'], 2, 1⟩ 0 0 ≠ isBlackAt ⟨[' ', ' '], 2, 1⟩ 0 0) := by
  decide

/-- Witness for the amended C1 on the grid `AB.␣␣` with dictionary {AB, CD}:
the fill succeeds with `AB.AB` and all conclusions hold there. -/
theorem fill_success_properties_witness :
    (⟨['A', 'B', '.', 'A', 'B'], 5, 1⟩ : Crossword).width =
        (⟨['A', 'B', '.', ' ', ' '], 5, 1⟩ : Crossword).width ∧
      (⟨['A', 'B', '.', 'A', 'B'], 5, 1⟩ : Crossword).height =
        (⟨['A', 'B', '.', ' ', ' '], 5, 1⟩ : Crossword).height ∧
      (∀ r c, isBlackAt ⟨['A', 'B', '.', 'A', 'B'], 5, 1⟩ r c =
        isBlackAt ⟨['A', 'B', '.', ' ', ' '], 5, 1⟩ r c) ∧
      ' ' ∉ (⟨['A', 'B', '.', 'A', 'B'], 5, 1⟩ : Crossword).contents ∧
      (∀ q, (⟨['A', 'B', '.', ' ', ' '], 5, 1⟩ : Crossword).contents.getD q ' ' ≠ ' ' →
        (⟨['A', 'B', '.', 'A', 'B'], 5, 1⟩ : Crossword).contents.getD q ' ' =
          (⟨['A', 'B', '.', ' ', ' '], 5, 1⟩ : Crossword).contents.getD q ' ') ∧
      (∀ wb ∈ parse_word_boundaries ⟨['A', 'B', '.', 'A', 'B'], 5, 1⟩,
        viewChars ⟨['A', 'B', '.', 'A', 'B'], 5, 1⟩ wb ∈ [['A', 'B'], ['C', 'D']]) :=
  fill_success_properties [['A', 'B'], ['C', 'D']] ⟨['A', 'B', '.', ' ', ' '], 5, 1⟩
    ⟨['A', 'B', '.', 'A', 'B'], 5, 1⟩ (fun _ => false) 5
    (by decide) (by decide) (by decide) (by decide)

/-- C5 (amended): on an initial grid with no empty cells, `fill` never
returns the grid and never reaches the no-solution error: the very first
iteration finds no slot with a blank to select and returns the
NoFillableSlot error ("No fillable words found"), regardless of whether the
grid's slots spell dictionary words. -/
theorem fill_complete_grid_errors (trie : Trie) (init : Crossword)
    (timeUp : Nat → Bool) (fuel : Nat)
    (H2 : init.contents.length = init.height * init.width)
    (hfull : ' ' ∉ init.contents)
    (ht : timeUp 1 = false) :
    fillRun trie init timeUp (fuel + 1) =
      some (Except.error "No fillable words found") := by
  rw [fillRun]
  simp only [fillLoop]
  have hblanks : (parse_word_boundaries init).filter
      (fun wb => (viewChars init wb).any (fun c => c = ' ')) = [] := by
    rw [List.filter_eq_nil_iff]
    intro wb hwb
    have hspec : isSlotSpec init wb := (mem_pwb_iff init wb).mp hwb
    intro hany
    rw [List.any_eq_true] at hany
    rcases hany with ⟨c, hc, hcsp⟩
    rw [viewChars] at hc
    rcases List.mem_map.mp hc with ⟨p, hp, rfl⟩
    rw [wbPositions] at hp
    rcases List.mem_map.mp hp with ⟨i, hi, rfl⟩
    have hlt := slotSpec_pos_lt init wb hspec H2 i (List.mem_range.mp hi)
    have hmem := getD_mem init.contents _ hlt
    have hceq : init.contents.getD (posIdx wb init.width i) ' ' = ' ' := by
      simpa using hcsp
    exact hfull (hceq ▸ hmem)
  rw [if_neg (by simp [ht])]
  rw [hblanks]
  rfl

/-- C5 counterexample: the single-cell complete grid `A` (no slots of length
at least 2, hence "trivially complete" per the claim) does not make `fill`
succeed: the code returns the NoFillableSlot error instead of the grid. -/
theorem fill_complete_grid_counterexample :
    fillRun (Trie.build []) ⟨['A'], 1, 1⟩ (fun _ => false) 5 =
      some (Except.error "No fillable words found") ∧
    some (Except.error "No fillable words found") ≠
      some (Except.ok (⟨['A'], 1, 1⟩ : Crossword)) := by
  exact ⟨by decide, by decide⟩

/-- Witness for the amended C5: a complete 1×2 grid whose only slot AB is
even a dictionary word still gets the NoFillableSlot error. -/
theorem fill_complete_grid_errors_witness :
    fillRun (Trie.build [['A', 'B']]) ⟨['A', 'B'], 2, 1⟩ (fun _ => false) 1 =
      some (Except.error "No fillable words found") :=
  fill_complete_grid_errors (Trie.build [['A', 'B']]) ⟨['A', 'B'], 2, 1⟩
    (fun _ => false) 0 (by decide) (by decide) rfl

/-! ## The `already_used` ghost trace (C10) -/

/-- The instrumented inner loop computes what the plain inner loop computes. -/
lemma innerLoopT_fst (trie : Trie) (C : Crossword) (S : WordBoundary)
    (orthos : List WordBoundary) :
    ∀ (fills used : List (List Char)) (stack : List Crossword),
      (innerLoopT trie C S orthos fills used stack).1 =
        innerLoop trie C S orthos fills used stack := by
  intro fills
  induction fills with
  | nil => intro used stack; rfl
  | cons w fills ih =>
    intro used stack
    rw [innerLoopT, innerLoop]
    by_cases hv : (is_viable_reuse (fill_one_word C S w) orthos trie used).1 = true
    · rw [if_pos hv, if_pos hv]
      by_cases hsp : (fill_one_word C S w).contents.any (fun c => c = ' ') = true
      · rw [if_pos hsp, if_pos hsp]
        exact ih [] _
      · rw [if_neg hsp, if_neg hsp]
    · rw [if_neg hv, if_neg hv]
      exact ih [] stack

/-- Every `already_used` argument the inner loop hands to `is_viable_reuse`
is the incoming set (first pass) or the cleared empty set (later passes). -/
lemma innerLoopT_trace (trie : Trie) (C : Crossword) (S : WordBoundary)
    (orthos : List WordBoundary) :
    ∀ (fills used : List (List Char)) (stack : List Crossword),
      ∀ u ∈ (innerLoopT trie C S orthos fills used stack).2, u = used ∨ u = [] := by
  intro fills
  induction fills with
  | nil =>
    intro used stack u hu
    cases hu
  | cons w fills ih =>
    intro used stack u hu
    rw [innerLoopT] at hu
    by_cases hv : (is_viable_reuse (fill_one_word C S w) orthos trie used).1 = true
    · rw [if_pos hv] at hu
      by_cases hsp : (fill_one_word C S w).contents.any (fun c => c = ' ') = true
      · rw [if_pos hsp] at hu
        rcases List.mem_cons.mp hu with h | h
        · exact Or.inl h
        · rcases ih [] _ u h with h2 | h2
          · exact Or.inr h2
          · exact Or.inr h2
      · rw [if_neg hsp] at hu
        rcases List.mem_cons.mp hu with h | h
        · exact Or.inl h
        · cases h
    · rw [if_neg hv] at hu
      rcases List.mem_cons.mp hu with h | h
      · exact Or.inl h
      · rcases ih [] stack u h with h2 | h2
        · exact Or.inr h2
        · exact Or.inr h2

/-- When the inner loop exhausts its fills, the surviving `already_used`
value is the incoming one (no pass ran) or the cleared empty set. -/
lemma innerLoopT_inl_used (trie : Trie) (C : Crossword) (S : WordBoundary)
    (orthos : List WordBoundary) :
    ∀ (fills used : List (List Char)) (stack : List Crossword)
      (us : List (List Char) × List Crossword),
      (innerLoopT trie C S orthos fills used stack).1 = Sum.inl us →
      us.1 = used ∨ us.1 = [] := by
  intro fills
  induction fills with
  | nil =>
    intro used stack us h
    cases h
    exact Or.inl rfl
  | cons w fills ih =>
    intro used stack us h
    rw [innerLoopT] at h
    by_cases hv : (is_viable_reuse (fill_one_word C S w) orthos trie used).1 = true
    · rw [if_pos hv] at h
      by_cases hsp : (fill_one_word C S w).contents.any (fun c => c = ' ') = true
      · rw [if_pos hsp] at h
        rcases ih [] _ us h with h2 | h2
        · exact Or.inr h2
        · exact Or.inr h2
      · rw [if_neg hsp] at h
        exact Sum.noConfusion h
    · rw [if_neg hv] at h
      rcases ih [] stack us h with h2 | h2
      · exact Or.inr h2
      · exact Or.inr h2

/-- The instrumented outer loop computes what the plain outer loop computes. -/
lemma fillLoopT_fst (trie : Trie) (wbs : List WordBoundary) (timeUp : Nat → Bool) :
    ∀ (fuel cnt : Nat) (used : List (List Char)) (stack : List Crossword),
      (fillLoopT trie wbs timeUp fuel cnt used stack).1 =
        fillLoop trie wbs timeUp fuel cnt used stack := by
  intro fuel
  induction fuel with
  | zero => intro cnt used stack; rfl
  | succ fuel ih =>
    intro cnt used stack
    cases stack with
    | nil => rfl
    | cons cand rest =>
      simp only [fillLoopT, fillLoop, innerLoopT_fst]
      split
      · rfl
      · split
        · rfl
        · split
          · rfl
          · rename_i us hinner
            exact ih (cnt + 1) us.1 us.2

/-- With an initially empty `already_used`, every value the whole search
passes to `is_viable_reuse` is the empty set. -/
lemma fillLoopT_trace (trie : Trie) (wbs : List WordBoundary) (timeUp : Nat → Bool) :
    ∀ (fuel cnt : Nat) (stack : List Crossword),
      ∀ u ∈ (fillLoopT trie wbs timeUp fuel cnt [] stack).2, u = [] := by
  intro fuel
  induction fuel with
  | zero =>
    intro cnt stack u hu
    cases hu
  | succ fuel ih =>
    intro cnt stack u hu
    cases stack with
    | nil => cases hu
    | cons cand rest =>
      simp only [fillLoopT] at hu
      split at hu
      · cases hu
      · split at hu
        · cases hu
        · rename_i toFill hmin
          split at hu
          · rename_i done hinner
            have hu' : u ∈ (innerLoopT trie cand toFill
                (words_orthogonal_to_word toFill wbs)
                (trie.words (viewChars cand toFill)) [] rest).2 := hu
            rcases innerLoopT_trace trie cand toFill _ _ [] rest u hu' with h | h
            · exact h
            · exact h
          · rename_i us hinner
            have hu' : u ∈ (innerLoopT trie cand toFill
                (words_orthogonal_to_word toFill wbs)
                (trie.words (viewChars cand toFill)) [] rest).2 ++
                (fillLoopT trie wbs timeUp fuel (cnt + 1) us.1 us.2).2 := hu
            rcases List.mem_append.mp hu' with h | h
            · rcases innerLoopT_trace trie cand toFill _ _ [] rest u h with h2 | h2
              · exact h2
              · exact h2
            · have husd : us.1 = [] := by
                rcases innerLoopT_inl_used trie cand toFill _ _ [] rest us hinner with h2 | h2
                · exact h2
                · exact h2
              rw [husd] at h
              exact ih (cnt + 1) us.2 u h

/-- C10 (amended): with the empty initial set, `already_used` is empty at
the moment every `is_viable_reuse` call begins — it starts empty and is
cleared immediately after every check, so nothing accumulated during one
check influences a later check — and the instrumented run computes exactly
what `fill`'s loop computes.  (Within a single check the accumulation is
live: see the counterexample for a candidate rejected because two crossing
complete slots repeat a word.) -/
theorem already_used_cleared_each_check (trie : Trie) (wbs : List WordBoundary)
    (timeUp : Nat → Bool) (fuel cnt : Nat) (stack : List Crossword) :
    (∀ u ∈ (fillLoopT trie wbs timeUp fuel cnt [] stack).2, u = []) ∧
    (fillLoopT trie wbs timeUp fuel cnt [] stack).1 =
      fillLoop trie wbs timeUp fuel cnt [] stack :=
  ⟨fillLoopT_trace trie wbs timeUp fuel cnt stack,
   fillLoopT_fst trie wbs timeUp fuel cnt [] stack⟩

/-- Witness for C10 on the 2×2 blank grid with dictionary {AA}. -/
theorem already_used_cleared_each_check_witness :
    (∀ u ∈ (fillLoopT (Trie.build [['A', 'A']])
        (parse_word_boundaries ⟨[' ', ' ', ' ', ' '], 2, 2⟩) (fun _ => false) 20 0 []
        [⟨[' ', ' ', ' ', ' '], 2, 2⟩]).2, u = []) ∧
    (fillLoopT (Trie.build [['A', 'A']])
        (parse_word_boundaries ⟨[' ', ' ', ' ', ' '], 2, 2⟩) (fun _ => false) 20 0 []
        [⟨[' ', ' ', ' ', ' '], 2, 2⟩]).1 =
      fillLoop (Trie.build [['A', 'A']])
        (parse_word_boundaries ⟨[' ', ' ', ' ', ' '], 2, 2⟩) (fun _ => false) 20 0 []
        [⟨[' ', ' ', ' ', ' '], 2, 2⟩] :=
  already_used_cleared_each_check _ _ _ 20 0 _

/-- C10 counterexample: a candidate grid is rejected for reusing a word
placed in another slot.  On the 2×2 grid fully filled with A against the
dictionary {AA}, the viability pass over the orthogonals of the just-filled
down slot at (0,1) fails — `is_viable_reuse` returns false — although both
orthogonal views are viable in the dictionary; the failure comes from the
within-pass `already_used` duplicate check (AA appears in both rows), and it
makes the whole search on the blank 2×2 grid drain its stack and report
no solution instead of returning the AA-filled grid. -/
theorem already_used_rejects_within_check :
    words_orthogonal_to_word ⟨0, 1, 2, Direction.Down⟩
        (parse_word_boundaries ⟨[' ', ' ', ' ', ' '], 2, 2⟩) =
      [⟨0, 0, 2, Direction.Across⟩, ⟨1, 0, 2, Direction.Across⟩] ∧
    (is_viable_reuse ⟨['A', 'A', 'A', 'A'], 2, 2⟩
        (words_orthogonal_to_word ⟨0, 1, 2, Direction.Down⟩
          (parse_word_boundaries ⟨[' ', ' ', ' ', ' '], 2, 2⟩))
        (Trie.build [['A', 'A']]) []).1 = false ∧
    (Trie.build [['A', 'A']]).is_viable
        (viewChars ⟨['A', 'A', 'A', 'A'], 2, 2⟩ ⟨0, 0, 2, Direction.Across⟩) = true ∧
    (Trie.build [['A', 'A']]).is_viable
        (viewChars ⟨['A', 'A', 'A', 'A'], 2, 2⟩ ⟨1, 0, 2, Direction.Across⟩) = true ∧
    fillRun (Trie.build [['A', 'A']]) ⟨[' ', ' ', ' ', ' '], 2, 2⟩ (fun _ => false) 20 =
      some (Except.error "No valid solution found") := by
  decide

end XWords
